import Mathlib

/-!
Verification of the `vscode-languageserver-node` message reader and
semantic-token utilities.

This development embeds, as executable Lean definitions, the parts of the
repository needed to settle the frozen claims:

* `ReadableStreamMessageReader` (`src/jsonrpc/src/common/common.ts`):
  header/body framing extraction (`onData`), fatal `Content-Length` errors,
  decode-error reporting, content-type decoder resolution
  (`ResolvedMessageReaderOptions.fromOptions`), the partial-message timer
  (`setPartialMessageTimer` / `clearPartialMessageTimer`), and
  `AbstractMessageReader.dispose`.
* `SemanticTokensDiff.computeDiff` and `SemanticTokensBuilder.push`/`build`
  (`src/server/src/common/semanticTokens.ts`).

The byte stream is modelled as `List Char` (one `Char` per byte; headers are
ASCII, and bodies are only ever sliced, never inspected).  The RAL message
buffer (`tryReadHeaders` / `tryReadBody`) is not part of the sources, so it is
modelled from the spec, as noted on the definitions below.
-/

/-- Carriage-return / line-feed pair terminating one header line. -/
def crlf : List Char := ['\r', '\n']

/-- Modelled from the spec: the RAL message buffer's header-block scanner.
The header block is a sequence of ASCII `Name: Value` lines terminated by an
empty line, i.e. everything up to and including the first `\r\n\r\n`.
Returns the bytes before that first terminator, and the bytes after it;
`none` when no terminator is present yet (the reader keeps buffering). -/
def splitAtHeaderEnd : List Char → Option (List Char × List Char)
  | [] => none
  | c :: rest =>
    if (c :: rest).take 4 = ['\r', '\n', '\r', '\n'] then some ([], rest.drop 3)
    else
      match splitAtHeaderEnd rest with
      | some (h, r) => some (c :: h, r)
      | none => none

/-- Split a header section (already stripped of its final `\r\n\r\n`)
into its `\r\n`-separated lines. -/
def splitHeaderLines : List Char → List (List Char)
  | [] => [[]]
  | [c] => [[c]]
  | c :: d :: rest =>
    if c = '\r' ∧ d = '\n' then [] :: splitHeaderLines rest
    else
      match splitHeaderLines (d :: rest) with
      | l :: ls => (c :: l) :: ls
      | [] => [[c]]

/-- Split a header line at its first colon: `Name: Value`. -/
def splitAtColon : List Char → Option (List Char × List Char)
  | [] => none
  | c :: rest =>
    if c = ':' then some ([], rest)
    else
      match splitAtColon rest with
      | some (n, v) => some (c :: n, v)
      | none => none

/-- Strip leading and trailing blanks from a header value
(the RAL buffer applies JavaScript `trim()` to header values). -/
def trimSpaces (l : List Char) : List Char :=
  ((l.dropWhile (fun c => c == ' ')).reverse.dropWhile (fun c => c == ' ')).reverse

/-- Insert with JavaScript `Map.set` semantics: overwrite an existing
binding for the key, otherwise append a fresh one. -/
def mapSet (m : List (List Char × List Char)) (k v : List Char) :
    List (List Char × List Char) :=
  if m.any (fun p => p.1 == k) then
    m.map (fun p => if p.1 == k then (k, v) else p)
  else m ++ [(k, v)]

/-- Parse the header lines of one block into a name-to-value map
(lines without a colon are ignored; values are trimmed). -/
def parseHeaderLines (lines : List (List Char)) : List (List Char × List Char) :=
  lines.foldl
    (fun m l =>
      match splitAtColon l with
      | some (n, v) => mapSet m n (trimSpaces v)
      | none => m)
    []

/-- Modelled from the spec: `MessageBuffer.tryReadHeaders` (RAL, not under
the sources).  Succeeds exactly when a complete header block is buffered,
consuming it and returning the parsed headers with the remaining bytes. -/
def tryReadHeaders (buf : List Char) :
    Option (List (List Char × List Char) × List Char) :=
  match splitAtHeaderEnd buf with
  | some (h, rest) => some (parseHeaderLines (splitHeaderLines h), rest)
  | none => none

/-- Modelled from the spec: `MessageBuffer.tryReadBody` (RAL, not under the
sources).  Returns the first `n` buffered bytes and the remainder when at
least `n` bytes are available, `none` otherwise (the reader keeps buffering). -/
def tryReadBody (n : Int) (buf : List Char) : Option (List Char × List Char) :=
  if (buf.length : Int) < n then none
  else some (buf.take n.toNat, buf.drop n.toNat)

/-- Decimal digit character for `n < 10`. -/
def digitChar (n : Nat) : Char := Char.ofNat (48 + n)

/-- Numeric value of a digit string, most significant digit first. -/
def digitsVal (l : List Char) : Nat :=
  l.foldl (fun a c => a * 10 + (c.toNat - 48)) 0

/-- Decimal digits of `n`, most significant first (fueled so that the
definition is structurally recursive and kernel-reducible). -/
def natDigitsAux : Nat → Nat → List Char
  | 0, _ => []
  | fuel + 1, n =>
    if n < 10 then [digitChar n]
    else natDigitsAux fuel (n / 10) ++ [digitChar (n % 10)]

/-- Decimal digits of `n`, most significant first. -/
def natDigits (n : Nat) : List Char := natDigitsAux (n + 1) n

/-- Model of JavaScript `parseInt` restricted to what header values exercise:
skip leading blanks, accept an optional sign, then read a non-empty run of
decimal digits; `none` models the `NaN` result. -/
def parseDigitsPre (l : List Char) : Option Nat :=
  let ds := l.takeWhile (fun c => c.isDigit)
  if ds.isEmpty then none else some (digitsVal ds)

/-- Model of JavaScript `parseInt` on a header value (see `parseDigitsPre`). -/
def parseIntJS (l : List Char) : Option Int :=
  match l.dropWhile (fun c => c == ' ' || c == '\t' || c == '\n' || c == '\r') with
  | [] => none
  | c :: rest =>
    if c = '-' then (parseDigitsPre rest).map (fun n => -(n : Int))
    else if c = '+' then (parseDigitsPre rest).map (fun n => (n : Int))
    else (parseDigitsPre (c :: rest)).map (fun n => (n : Int))

/-- The `Content-Length` header name. -/
def clKey : List Char := "Content-Length".data

/-- The fatal error message for a header block without `Content-Length`
(`onData`, line 250 of `common.ts`). -/
def errNoContentLength : String := "Header must provide a Content-Length property."

/-- The fatal error message for a `Content-Length` value that does not parse
as a number (`onData`, line 254 of `common.ts`). -/
def errBadContentLength : String := "Content-Length value must be a number."

/-- `onData` lines 248–256: read the `Content-Length` header of a completed
block.  A missing header, and an empty value (both falsy in JavaScript), raise
the missing-header error; a value that `parseInt` turns into `NaN` raises the
non-numeric error. -/
def clValue (hdrs : List (List Char × List Char)) : Except String Int :=
  match List.lookup clKey hdrs with
  | none => .error errNoContentLength
  | some v =>
    if v = [] then .error errNoContentLength
    else
      match parseIntJS v with
      | none => .error errBadContentLength
      | some len => .ok len

/-- Framing state of the reader: `nextMessageLength` (`-1` sentinel exactly
as in the constructor and `listen`) and the accumulated buffer. -/
structure RState where
  nextMessageLength : Int
  buffer : List Char
deriving DecidableEq, Repr

deriving instance DecidableEq for Except

/-- Result of running the `onData` extraction loop: the complete bodies
extracted, and either the blocked framing state or a thrown framing error. -/
structure ExtractOut where
  bodies : List (List Char)
  result : Except String RState
deriving DecidableEq, Repr

/-- The `while (true)` extraction loop of `onData` starting in the
`nextMessageLength === -1` phase, with structural fuel (each full iteration
consumes at least the four bytes of a block terminator, so
`buf.length + 1` units of fuel always suffice; see `extractHdrFuel_congr`). -/
def extractHdrFuel : Nat → List Char → ExtractOut
  | 0, buf => ⟨[], .ok ⟨-1, buf⟩⟩
  | fuel + 1, buf =>
    match tryReadHeaders buf with
    | none => ⟨[], .ok ⟨-1, buf⟩⟩
    | some (hdrs, rest) =>
      match clValue hdrs with
      | .error e => ⟨[], .error e⟩
      | .ok len =>
        match tryReadBody len rest with
        | none => ⟨[], .ok ⟨len, rest⟩⟩
        | some (body, rest2) =>
          let r := extractHdrFuel fuel rest2
          ⟨body :: r.bodies, r.result⟩

/-- The `onData` extraction loop from the header-reading phase. -/
def extractHdr (buf : List Char) : ExtractOut :=
  extractHdrFuel (buf.length + 1) buf

/-- The full `onData` extraction loop (lines 242–281 of `common.ts`):
when a body read is pending (`nextMessageLength ≠ -1`) first try to complete
it, then keep extracting whole messages until blocked or a framing error is
thrown.  Decoding is handled separately (`eventOf`): in the code it happens
in promise callbacks and never feeds back into the loop. -/
def extractCore (n : Int) (buf : List Char) : ExtractOut :=
  if n = -1 then extractHdr buf
  else
    match tryReadBody n buf with
    | none => ⟨[], .ok ⟨n, buf⟩⟩
    | some (body, rest2) =>
      let r := extractHdr rest2
      ⟨body :: r.bodies, r.result⟩

/-- A decoded message.  JSON parsing is done by the RAL `applicationJson`
decoder, which is not part of the sources; the structured value is therefore
represented by its decoded byte content. -/
abbrev Msg := List Char

/-- A content decoder (`encoding.ts` interface): a named byte-to-byte
transform that may fail; failure models a rejected promise. -/
structure ContentDecoder where
  name : String
  decode : List Char → Except String (List Char)

/-- A content-type decoder (`encoding.ts` interface): a named transform from
body bytes to a structured `Msg` that may fail. -/
structure ContentTypeDecoder where
  name : String
  decode : List Char → Except String Msg

/-- Modelled from the spec: `RAL().applicationJson.decoder`, the default
JSON content-type decoder installed by `fromOptions`; it converts the body
bytes into the structured message (represented by those bytes) and does not
fail on the bodies considered here. -/
def applicationJsonDecoder : ContentTypeDecoder :=
  ⟨"application/json", fun bytes => .ok bytes⟩

/-- `MessageReaderOptions` (`common.ts` lines 142–148); every field is
optional exactly as in the interface. -/
structure MessageReaderOptions where
  charset : Option String := none
  contentDecoder : Option ContentDecoder := none
  contentDecoders : Option (List ContentDecoder) := none
  contentTypeDecoder : Option ContentTypeDecoder := none
  contentTypeDecoders : Option (List ContentTypeDecoder) := none

/-- Insert into a name-keyed decoder map with `Map.set` semantics. -/
def decoderMapSet {α : Type} (nameOf : α → String) (m : List (String × α))
    (d : α) : List (String × α) :=
  if m.any (fun p => p.1 == nameOf d) then
    m.map (fun p => if p.1 == nameOf d then (nameOf d, d) else p)
  else m ++ [(nameOf d, d)]

/-- `ResolvedMessageReaderOptions` (`common.ts` lines 150–156). -/
structure ResolvedOptions where
  charset : String
  contentDecoder : Option ContentDecoder
  contentDecoders : List (String × ContentDecoder)
  contentTypeDecoder : ContentTypeDecoder
  contentTypeDecoders : List (String × ContentTypeDecoder)

/-- `ResolvedMessageReaderOptions.fromOptions` (`common.ts` lines 160–195):
resolve the constructor options, installing the `applicationJson` decoder as
`contentTypeDecoder` when none was supplied. -/
def fromOptions (options : Option (String ⊕ MessageReaderOptions)) :
    ResolvedOptions :=
  match options with
  | none => ⟨"utf-8", none, [], applicationJsonDecoder,
      decoderMapSet ContentTypeDecoder.name [] applicationJsonDecoder⟩
  | some (.inl charset) => ⟨charset, none, [], applicationJsonDecoder,
      decoderMapSet ContentTypeDecoder.name [] applicationJsonDecoder⟩
  | some (.inr o) =>
    let charset := o.charset.getD "utf-8"
    let cds0 : List (String × ContentDecoder) :=
      match o.contentDecoder with
      | some d => decoderMapSet ContentDecoder.name [] d
      | none => []
    let cds :=
      match o.contentDecoders with
      | some l => l.foldl (decoderMapSet ContentDecoder.name) cds0
      | none => cds0
    let ctds0 : List (String × ContentTypeDecoder) :=
      match o.contentTypeDecoder with
      | some d => decoderMapSet ContentTypeDecoder.name [] d
      | none => []
    let ctds :=
      match o.contentTypeDecoders with
      | some l => l.foldl (decoderMapSet ContentTypeDecoder.name) ctds0
      | none => ctds0
    match o.contentTypeDecoder with
    | some d => ⟨charset, o.contentDecoder, cds, d, ctds⟩
    | none => ⟨charset, o.contentDecoder, cds, applicationJsonDecoder,
        decoderMapSet ContentTypeDecoder.name ctds applicationJsonDecoder⟩

/-- The default resolved options: constructing the reader with no options. -/
def defaultOpts : ResolvedOptions := fromOptions none

/-- An observable outcome of the reader for one extracted body:
either the listen callback receives the decoded message, or the failure is
fired on the `onError` emitter. -/
inductive REvent where
  | message (m : Msg)
  | error (e : String)
deriving DecidableEq, Repr

/-- `onData` lines 266–280: run one extracted body through the optional
content decoder and then through the resolved content-type decoder
(`this.options.contentTypeDecoder.decode`); a success invokes the callback,
a failure of either stage fires `onError`.  Note that the decoder used is the
construction-time `options.contentTypeDecoder` — the header block is not
consulted. -/
def eventOf (opts : ResolvedOptions) (body : List Char) : REvent :=
  let decoded :=
    match opts.contentDecoder with
    | some cd => cd.decode body
    | none => .ok body
  match decoded with
  | .error e => .error e
  | .ok v =>
    match opts.contentTypeDecoder.decode v with
    | .ok m => .message m
    | .error e => .error e

/-- One `onData` call (`common.ts` lines 240–282): append the chunk to the
buffer, then run the extraction loop; each complete body becomes an `REvent`
through the decode pipeline, and a framing error is thrown out of `onData`
(carried in the `Except`). -/
def processChunk (opts : ResolvedOptions) (st : RState) (chunk : List Char) :
    List REvent × Except String RState :=
  let r := extractCore st.nextMessageLength (st.buffer ++ chunk)
  (r.bodies.map (eventOf opts), r.result)

/-- Deliver a sequence of chunks to `onData`, accumulating the events;
a thrown framing error stops reading (the connection is closed on it). -/
def runChunks (opts : ResolvedOptions) (st : RState) :
    List (List Char) → List REvent × Except String RState
  | [] => ([], .ok st)
  | c :: cs =>
    match processChunk opts st c with
    | (evs, .error e) => (evs, .error e)
    | (evs, .ok st') =>
      let (evs2, r) := runChunks opts st' cs
      (evs ++ evs2, r)

/-- The framing state right after construction / `listen`:
`nextMessageLength = -1` and an empty buffer. -/
def initRState : RState := ⟨-1, []⟩

/-- The canonical well-framed header block for a body of `n` bytes:
`Content-Length: n\r\n\r\n`. -/
def frameHeader (n : Nat) : List Char :=
  "Content-Length: ".data ++ natDigits n ++ crlf ++ crlf

/-- A well-framed message: its header block followed by its body. -/
def frame (body : List Char) : List Char := frameHeader body.length ++ body

/-- A well-framed message carrying an additional `Content-Type` header. -/
def frameCT (ctValue : List Char) (body : List Char) : List Char :=
  "Content-Length: ".data ++ natDigits body.length ++ crlf ++
    "Content-Type: ".data ++ ctValue ++ crlf ++ crlf ++ body

/-! ## The partial-message timer model (`common.ts` lines 204–303)

`setTimeout` is modelled operationally: a pending timer records the
`messageToken` and `_partialMessageTimeout` captured when it was scheduled
(the two extra `setTimeout` arguments) together with its absolute deadline.
Timers due at or before the arrival time of the next data chunk fire before
that chunk is processed. -/

/-- A pending `setPartialMessageTimer` timeout: the captured token, the
captured timeout value (reported as `waitingTime`), and the absolute time at
which it fires. -/
structure PTimer where
  token : Nat
  waiting : Int
  deadline : Int
deriving DecidableEq, Repr

/-- `setPartialMessageTimer` (lines 291–303): clear any pending timer and,
unless the configured timeout is `≤ 0`, schedule a new one capturing the
current `messageToken` and timeout. -/
def setTimerModel (timeout : Int) (tok : Nat) (now : Int) : Option PTimer :=
  if timeout ≤ 0 then none else some ⟨tok, timeout, now + timeout⟩

/-- An observable outcome of the reader including partial-message events:
`waiting tok w` is `firePartialMessage {messageToken := tok, waitingTime := w}`. -/
inductive TEvent where
  | message (m : Msg)
  | error (e : String)
  | waiting (tok : Nat) (w : Int)
deriving DecidableEq, Repr

/-- Inject a decode outcome into the timed event alphabet. -/
def TEvent.ofREvent : REvent → TEvent
  | .message m => .message m
  | .error e => .error e

/-- The partial-message notifications among a list of timed events. -/
def waitingEvents (evs : List TEvent) : List (Nat × Int) :=
  evs.filterMap (fun ev =>
    match ev with
    | .waiting tok w => some (tok, w)
    | _ => none)

/-- The body of the `setTimeout` callback (lines 296–302), iterated for every
pending timer due at or before time `t` (fueled; see `fireFuel_congr`):
the timer clears itself, and when its captured token still equals the
reader's `messageToken` it fires the partial-message event and reschedules
through `setPartialMessageTimer`, the new deadline counting from the moment
it fired. -/
def fireFuel : Nat → Int → Nat → Int → Option PTimer → Option PTimer × List TEvent
  | 0, _, _, _, tmr => (tmr, [])
  | _ + 1, _, _, _, none => (none, [])
  | fuel + 1, timeout, mtok, t, some tm =>
    if tm.deadline ≤ t then
      if tm.token = mtok then
        let nt := setTimerModel timeout mtok tm.deadline
        let (tmr, evs) := fireFuel fuel timeout mtok t nt
        (tmr, .waiting tm.token tm.waiting :: evs)
      else (none, [])
    else (some tm, [])

/-- Fuel sufficient for `fireFuel`: each refire pushes the deadline up by the
(positive) timeout, and a non-positive timeout never reschedules. -/
def fireFuelFor (t : Int) : Option PTimer → Nat
  | none => 1
  | some tm => (t + 1 - tm.deadline).toNat + 1

/-- Fire every pending timer due at or before time `t`. -/
def fireTimers (timeout : Int) (mtok : Nat) (t : Int) (tmr : Option PTimer) :
    Option PTimer × List TEvent :=
  fireFuel (fireFuelFor t tmr) timeout mtok t tmr

/-- The timed reader state: framing state, the `messageToken` field, and the
pending partial-message timer. -/
structure TimedState where
  rst : RState
  messageToken : Nat
  timer : Option PTimer
deriving DecidableEq, Repr

/-- One inbound data chunk arriving at time `t`: timers due by `t` fire
first, then `onData` runs.  The net timer effect of one `onData` call is:
blocked waiting for body bytes ⇒ `setPartialMessageTimer` was the last timer
action (lines 259–262); otherwise, if at least one body completed, the last
timer action was `clearPartialMessageTimer` (line 264); otherwise the header
block is still incomplete and the timer is untouched.  The `Bool` is false
when `onData` threw a framing error. -/
def dataStep (opts : ResolvedOptions) (timeout : Int) (s : TimedState)
    (t : Int) (chunk : List Char) : TimedState × List TEvent × Bool :=
  let fired := fireTimers timeout s.messageToken t s.timer
  let r := extractCore s.rst.nextMessageLength (s.rst.buffer ++ chunk)
  let msgEvs := (r.bodies.map (eventOf opts)).map TEvent.ofREvent
  match r.result with
  | .error e => (⟨⟨-1, []⟩, s.messageToken, none⟩,
      fired.2 ++ msgEvs ++ [.error e], false)
  | .ok s' =>
    let tmr2 :=
      if s'.nextMessageLength ≠ -1 then setTimerModel timeout s.messageToken t
      else if r.bodies ≠ [] then none
      else fired.1
    (⟨s', s.messageToken, tmr2⟩, fired.2 ++ msgEvs, true)

/-- Deliver a timeline of timestamped chunks, firing due timers in between;
reading stops on a thrown framing error. -/
def runTimed (opts : ResolvedOptions) (timeout : Int) (s : TimedState) :
    List (Int × List Char) → TimedState × List TEvent
  | [] => (s, [])
  | (t, c) :: rest =>
    match dataStep opts timeout s t c with
    | (s', evs, false) => (s', evs)
    | (s', evs, true) =>
      let (s'', evs2) := runTimed opts timeout s' rest
      (s'', evs ++ evs2)

/-- The reader as constructed and after `listen` (`common.ts` lines 210–218
and 228–238): `_partialMessageTimeout` is `10000`, `nextMessageLength` is
`-1`, `messageToken` is `0` and no timer is pending. -/
structure ReaderFull where
  state : TimedState
  timeoutMs : Int
deriving DecidableEq, Repr

/-- The reader constructor followed by `listen`. -/
def mkReader : ReaderFull := ⟨⟨initRState, 0, none⟩, 10000⟩

/-- The `partialMessageTimeout` setter (lines 220–222). -/
def setTimeoutMs (r : ReaderFull) (t : Int) : ReaderFull :=
  { r with timeoutMs := t }

/-! ## `AbstractMessageReader` emitters and `dispose`
(`common.ts` lines 91–140) -/

/-- Disposal state of the three emitters owned by `AbstractMessageReader`
(`errorEmitter`, `closeEmitter`, `partialMessageEmitter`). -/
structure EmitterState where
  errorEmitterDisposed : Bool
  closeEmitterDisposed : Bool
  pmEmitterDisposed : Bool
deriving DecidableEq, Repr

/-- The emitters as created by the `AbstractMessageReader` constructor. -/
def emittersInit : EmitterState := ⟨false, false, false⟩

/-- `AbstractMessageReader.dispose` (lines 104–107): it disposes
`this.errorEmitter` and `this.closeEmitter` — and nothing else. -/
def readerDispose (s : EmitterState) : EmitterState :=
  { s with errorEmitterDisposed := true, closeEmitterDisposed := true }

/-! ## `SemanticTokensDiff` and `SemanticTokensBuilder`
(`src/server/src/common/semanticTokens.ts`) -/

/-- `SemanticTokensEdit` as produced by `computeDiff`: `deleteCount` is kept
as an integer because the computed value `originalLength - endIndex -
startIndex` is not clamped in the code. -/
structure STEdit where
  start : Nat
  deleteCount : Int
  data : Option (List Int)
deriving DecidableEq, Repr

/-- Length of the common prefix of two sequences — the first loop of
`computeDiff` (lines 70–73). -/
def frontMatchLen : List Int → List Int → Nat
  | a :: as, b :: bs => if a = b then frontMatchLen as bs + 1 else 0
  | _, _ => 0

/-- JavaScript `Array.prototype.slice(start, end)` with a possibly
out-of-range `end` (clamped), as used on line 83. -/
def jsSlice (l : List Int) (s : Nat) (e : Int) : List Int :=
  (l.take e.toNat).drop s

/-- `SemanticTokensDiff.computeDiff` (lines 67–98), translated clause by
clause: scan the common prefix, then the common suffix (bounded only by the
two lengths, so the regions may overlap), decrement the suffix length by one,
and emit a single replace / insert / delete edit, or none when equal. -/
def computeDiff (originalSequence modifiedSequence : List Int) : List STEdit :=
  let originalLength := originalSequence.length
  let modifiedLength := modifiedSequence.length
  let startIndex := frontMatchLen originalSequence modifiedSequence
  if startIndex < modifiedLength ∧ startIndex < originalLength then
    let endIndexN := frontMatchLen originalSequence.reverse modifiedSequence.reverse
    let endIndex : Int := (endIndexN : Int) - 1
    let newData := jsSlice modifiedSequence startIndex ((modifiedLength : Int) - endIndex)
    [⟨startIndex, (originalLength : Int) - endIndex - (startIndex : Int), some newData⟩]
  else if startIndex < modifiedLength then
    [⟨startIndex, 0, some (modifiedSequence.drop startIndex)⟩]
  else if startIndex < originalLength then
    [⟨startIndex, (originalLength : Int) - (startIndex : Int), none⟩]
  else []

/-- Apply one `SemanticTokensEdit` to a sequence, as the claim reads it:
replace the `deleteCount` elements starting at `start` by the edit's data
(`deleteCount` is clamped at zero the way `Array.prototype.splice` would). -/
def applyEdit (l : List Int) (e : STEdit) : List Int :=
  l.take e.start ++ e.data.getD [] ++ l.drop (e.start + e.deleteCount.toNat)

/-- Apply a list of edits left to right. -/
def applyEdits (l : List Int) (es : List STEdit) : List Int :=
  es.foldl applyEdit l

/-- One pushed semantic token: absolute line and char plus the three
verbatim fields. -/
structure SToken where
  line : Int
  char : Int
  len : Int
  tokenType : Int
  tokenModifiers : Int
deriving DecidableEq, Repr

/-- The mutable state of `SemanticTokensBuilder` relevant to `push` and
`build`: `_prevLine`, `_prevChar` and the `_data` array (`_dataLen` is
always its length, since `push` writes at `_dataLen++`). -/
structure BuilderState where
  prevLine : Int
  prevChar : Int
  data : List Int
deriving DecidableEq, Repr

/-- `SemanticTokensBuilder.initialize` (lines 117–123), as far as `push` and
`build` observe it. -/
def builderInit : BuilderState := ⟨0, 0, []⟩

/-- `SemanticTokensBuilder.push` (lines 125–143): delta-encode the line, and
the char exactly when the line delta is zero; the first pushed token (empty
`_data`) stores absolute values. -/
def builderPush (s : BuilderState) (tk : SToken) : BuilderState :=
  let pushLine := if s.data.length > 0 then tk.line - s.prevLine else tk.line
  let pushChar :=
    if s.data.length > 0 ∧ tk.line - s.prevLine = 0 then tk.char - s.prevChar
    else tk.char
  ⟨tk.line, tk.char,
    s.data ++ [pushLine, pushChar, tk.len, tk.tokenType, tk.tokenModifiers]⟩

/-- A sequence of `push` calls. -/
def builderPushAll (s : BuilderState) (ts : List SToken) : BuilderState :=
  ts.foldl builderPush s

/-- `SemanticTokensBuilder.build` (lines 156–162): the delivered data array
(the time-based `resultId` is not modelled). -/
def builderBuild (s : BuilderState) : List Int := s.data

/-- The delta encoding as the claim words it, tracking the previous token's
absolute position; `first` marks that no token has been pushed yet. -/
def claimEncode : Bool → Int → Int → List SToken → List Int
  | _, _, _, [] => []
  | first, pl, pc, tk :: ts =>
    let dl := if first then tk.line else tk.line - pl
    let dc :=
      if first then tk.char
      else if tk.line = pl then tk.char - pc else tk.char
    dl :: dc :: tk.len :: tk.tokenType :: tk.tokenModifiers ::
      claimEncode false tk.line tk.char ts

/-- Recover the absolute `(line, char)` of every encoded token from a built
data array (inverse direction of the claim). -/
def recoverPositions : Int → Int → List Int → List (Int × Int)
  | pl, pc, dl :: dc :: _ :: _ :: _ :: rest =>
    let line := pl + dl
    let char := if dl = 0 then pc + dc else dc
    (line, char) :: recoverPositions line char rest
  | _, _, _ => []

/-! ## Helper lemmas: digits and characters -/

theorem digitChar_spec (n : Nat) (h : n < 10) :
    (digitChar n).isDigit = true ∧ 48 ≤ (digitChar n).toNat ∧
      (digitChar n).toNat ≤ 57 ∧ (digitChar n).toNat = 48 + n := by
  interval_cases n <;> exact ⟨by decide, by decide, by decide, by decide⟩

theorem char_ne_of_digit_range {c : Char} (h1 : 48 ≤ c.toNat) (h2 : c.toNat ≤ 57) :
    c ≠ '\r' ∧ c ≠ '\n' ∧ c ≠ ' ' ∧ c ≠ '\t' ∧ c ≠ ':' ∧ c ≠ '-' ∧ c ≠ '+' := by
  refine ⟨?_, ?_, ?_, ?_, ?_, ?_, ?_⟩ <;>
    · rintro rfl
      revert h1 h2
      decide

theorem digitsVal_append_singleton (l : List Char) (c : Char) :
    digitsVal (l ++ [c]) = digitsVal l * 10 + (c.toNat - 48) := by
  simp [digitsVal, List.foldl_append]

theorem natDigitsAux_spec :
    ∀ (fuel n : Nat), n < fuel →
      digitsVal (natDigitsAux fuel n) = n ∧ natDigitsAux fuel n ≠ [] ∧
        ∀ c ∈ natDigitsAux fuel n,
          c.isDigit = true ∧ 48 ≤ c.toNat ∧ c.toNat ≤ 57 := by
  intro fuel
  induction fuel with
  | zero => intro n h; omega
  | succ fuel ih =>
    intro n h
    by_cases h10 : n < 10
    · obtain ⟨hd0, hd1, hd2, hd3⟩ := digitChar_spec n h10
      refine ⟨?_, by simp [natDigitsAux, h10], ?_⟩
      · simp only [natDigitsAux, if_pos h10, digitsVal, List.foldl_cons,
          List.foldl_nil, hd3]
        omega
      · simp only [natDigitsAux, if_pos h10, List.mem_singleton]
        intro c hc
        subst hc
        exact ⟨hd0, hd1, hd2⟩
    · have hdiv : n / 10 < fuel := by omega
      obtain ⟨ihv, ihne, ihmem⟩ := ih (n / 10) hdiv
      obtain ⟨hd0, hd1, hd2, hd3⟩ := digitChar_spec (n % 10) (by omega)
      refine ⟨?_, ?_, ?_⟩
      · simp only [natDigitsAux, if_neg h10]
        rw [digitsVal_append_singleton, ihv, hd3]
        omega
      · simp [natDigitsAux, h10]
      · simp only [natDigitsAux, if_neg h10]
        intro c hc
        rcases List.mem_append.mp hc with hc1 | hc2
        · exact ihmem c hc1
        · simp only [List.mem_singleton] at hc2
          subst hc2
          exact ⟨hd0, hd1, hd2⟩

theorem natDigits_val (n : Nat) : digitsVal (natDigits n) = n :=
  (natDigitsAux_spec (n + 1) n (by omega)).1

theorem natDigits_ne_nil (n : Nat) : natDigits n ≠ [] :=
  (natDigitsAux_spec (n + 1) n (by omega)).2.1

theorem natDigits_range (n : Nat) :
    ∀ c ∈ natDigits n, 48 ≤ c.toNat ∧ c.toNat ≤ 57 := by
  intro c hc
  exact ((natDigitsAux_spec (n + 1) n (by omega)).2.2 c hc).2

theorem natDigits_isDigit (n : Nat) : ∀ c ∈ natDigits n, c.isDigit = true := by
  intro c hc
  exact ((natDigitsAux_spec (n + 1) n (by omega)).2.2 c hc).1

theorem natDigits_ne_cr (n : Nat) : ∀ c ∈ natDigits n, c ≠ '\r' := by
  intro c hc
  obtain ⟨h1, h2⟩ := natDigits_range n c hc
  exact (char_ne_of_digit_range h1 h2).1

theorem takeWhile_all {p : Char → Bool} :
    ∀ l : List Char, (∀ c ∈ l, p c = true) → l.takeWhile p = l := by
  intro l
  induction l with
  | nil => intro _; rfl
  | cons c cs ih =>
    intro h
    rw [List.takeWhile_cons, if_pos (h c (List.mem_cons_self c cs)),
      ih (fun x hx => h x (List.mem_cons_of_mem c hx))]

theorem dropWhile_all_false {p : Char → Bool} :
    ∀ l : List Char, (∀ c ∈ l, p c = false) → l.dropWhile p = l := by
  intro l
  induction l with
  | nil => intro _; rfl
  | cons c cs ih =>
    intro h
    simp [List.dropWhile_cons, h c (by simp)]

theorem parseIntJS_natDigits (n : Nat) : parseIntJS (natDigits n) = some (n : Int) := by
  obtain ⟨c, rest, hcons⟩ := List.exists_cons_of_ne_nil (natDigits_ne_nil n)
  have hrange : ∀ x ∈ natDigits n, 48 ≤ x.toNat ∧ x.toNat ≤ 57 := natDigits_range n
  obtain ⟨hc1, hc2⟩ := hrange c (by rw [hcons]; simp)
  obtain ⟨hcr, hlf, hsp, htab, _, hminus, hplus⟩ := char_ne_of_digit_range hc1 hc2
  have hdw : (natDigits n).dropWhile
      (fun c => c == ' ' || c == '\t' || c == '\n' || c == '\r') = natDigits n := by
    apply dropWhile_all_false
    intro x hx
    obtain ⟨hx1, hx2⟩ := hrange x hx
    obtain ⟨xr, xl, xs, xt, _, _, _⟩ := char_ne_of_digit_range hx1 hx2
    simp [xr, xl, xs, xt]
  have htw : (natDigits n).takeWhile (fun c => c.isDigit) = natDigits n :=
    takeWhile_all _ (natDigits_isDigit n)
  have hdw' : (c :: rest).dropWhile
      (fun c => c == ' ' || c == '\t' || c == '\n' || c == '\r') = c :: rest :=
    hcons ▸ hdw
  have htw' : (c :: rest).takeWhile (fun c => c.isDigit) = c :: rest :=
    hcons ▸ htw
  have hval : digitsVal (c :: rest) = n := hcons ▸ natDigits_val n
  rw [hcons]
  simp only [parseIntJS, hdw']
  rw [if_neg hminus, if_neg hplus]
  simp only [parseDigitsPre, htw']
  simp [hval]

theorem trimSpaces_space (l : List Char) (h : ∀ c ∈ l, (c == ' ') = false) :
    trimSpaces (' ' :: l) = l := by
  have h1 : (' ' :: l).dropWhile (fun c => c == ' ') =
      l.dropWhile (fun c => c == ' ') := by
    simp [List.dropWhile_cons]
  have h2 : l.dropWhile (fun c => c == ' ') = l := dropWhile_all_false l h
  have h3 : l.reverse.dropWhile (fun c => c == ' ') = l.reverse :=
    dropWhile_all_false l.reverse (fun c hc => h c (List.mem_reverse.mp hc))
  simp [trimSpaces, h1, h2, h3]

/-! ## Helper lemmas: header-block splitting -/

theorem splitAtHeaderEnd_sound :
    ∀ buf h r, splitAtHeaderEnd buf = some (h, r) →
      buf = h ++ '\r' :: '\n' :: '\r' :: '\n' :: r := by
  intro buf
  induction buf with
  | nil => intro h r hx; simp [splitAtHeaderEnd] at hx
  | cons c rest ih =>
    intro h r hx
    by_cases hc : (c :: rest).take 4 = ['\r', '\n', '\r', '\n']
    · rw [splitAtHeaderEnd, if_pos hc] at hx
      obtain ⟨rfl, rfl⟩ := by simpa using hx
      have hTad := List.take_append_drop 4 (c :: rest)
      rw [hc] at hTad
      conv_lhs => rw [← hTad]
      simp
    · rw [splitAtHeaderEnd, if_neg hc] at hx
      cases hrec : splitAtHeaderEnd rest with
      | none => rw [hrec] at hx; simp at hx
      | some p =>
        obtain ⟨h', r'⟩ := p
        rw [hrec] at hx
        simp only [Option.some.injEq, Prod.mk.injEq] at hx
        obtain ⟨rfl, rfl⟩ := hx
        have := ih h' r' hrec
        simp [this]

theorem splitAtHeaderEnd_length {buf h r : List Char}
    (hx : splitAtHeaderEnd buf = some (h, r)) : r.length + 4 + h.length = buf.length := by
  have := congrArg List.length (splitAtHeaderEnd_sound buf h r hx)
  simp at this
  omega

theorem splitAtHeaderEnd_append :
    ∀ buf h r, splitAtHeaderEnd buf = some (h, r) →
      ∀ e, splitAtHeaderEnd (buf ++ e) = some (h, r ++ e) := by
  intro buf
  induction buf with
  | nil => intro h r hx; simp [splitAtHeaderEnd] at hx
  | cons c rest ih =>
    intro h r hx e
    have hlen4 : 3 ≤ rest.length := by
      have := splitAtHeaderEnd_length hx
      simp at this
      omega
    by_cases hc : (c :: rest).take 4 = ['\r', '\n', '\r', '\n']
    · rw [splitAtHeaderEnd, if_pos hc] at hx
      obtain ⟨rfl, rfl⟩ := by simpa using hx
      have hc' : ((c :: rest) ++ e).take 4 = ['\r', '\n', '\r', '\n'] := by
        rw [List.take_append_of_le_length (by simp; omega), hc]
      rw [List.cons_append, splitAtHeaderEnd, ← List.cons_append, if_pos hc']
      rw [List.drop_append_of_le_length hlen4]
    · rw [splitAtHeaderEnd, if_neg hc] at hx
      cases hrec : splitAtHeaderEnd rest with
      | none => rw [hrec] at hx; simp at hx
      | some p =>
        obtain ⟨h', r'⟩ := p
        rw [hrec] at hx
        simp only [Option.some.injEq, Prod.mk.injEq] at hx
        obtain ⟨rfl, rfl⟩ := hx
        have hc'' : ((c :: rest) ++ e).take 4 = (c :: rest).take 4 :=
          List.take_append_of_le_length (by simp; omega)
        rw [List.cons_append, splitAtHeaderEnd, ← List.cons_append,
          if_neg (by rw [hc'']; exact hc), ih h' r' hrec e]

theorem splitAtHeaderEnd_construct :
    ∀ h : List Char, (∀ x ∈ h, x ≠ '\r') →
      ∀ r, splitAtHeaderEnd (h ++ '\r' :: '\n' :: '\r' :: '\n' :: r) = some (h, r) := by
  intro h
  induction h with
  | nil =>
    intro _ r
    rw [List.nil_append, splitAtHeaderEnd, if_pos (by simp)]
    simp
  | cons c h' ih =>
    intro hcr r
    have hc : c ≠ '\r' := hcr c (by simp)
    have hne : ¬((c :: (h' ++ '\r' :: '\n' :: '\r' :: '\n' :: r)).take 4 =
        ['\r', '\n', '\r', '\n']) := by
      intro hcontra
      have h2 : some c = some '\r' := congrArg List.head? hcontra
      exact hc (Option.some.inj h2)
    rw [List.cons_append, splitAtHeaderEnd, if_neg hne,
      ih (fun x hx => hcr x (by simp [hx])) r]

theorem splitAtHeaderEnd_two_lines (l2 : List Char) (h2 : ∀ x ∈ l2, x ≠ '\r')
    (hne : l2 ≠ []) (r : List Char) :
    ∀ l1, (∀ x ∈ l1, x ≠ '\r') →
      splitAtHeaderEnd (l1 ++ ('\r' :: '\n' :: l2) ++ '\r' :: '\n' :: '\r' :: '\n' :: r) =
        some (l1 ++ '\r' :: '\n' :: l2, r) := by
  intro l1
  induction l1 with
  | nil =>
    intro _
    obtain ⟨c2, l2', rfl⟩ := List.exists_cons_of_ne_nil hne
    have hc2 : c2 ≠ '\r' := h2 c2 (by simp)
    simp only [List.nil_append, List.cons_append]
    rw [splitAtHeaderEnd, if_neg (by
      intro hcontra
      have h3 : some c2 = some '\r' := congrArg (fun l => l.tail.tail.head?) hcontra
      exact hc2 (Option.some.inj h3))]
    rw [splitAtHeaderEnd, if_neg (by
      intro hcontra
      have h3 : some '\n' = some '\r' := congrArg List.head? hcontra
      exact absurd (Option.some.inj h3) (by decide))]
    have hcon := splitAtHeaderEnd_construct (c2 :: l2') h2 r
    rw [List.cons_append] at hcon
    rw [hcon]
  | cons c l1' ih =>
    intro h1
    have hc : c ≠ '\r' := h1 c (by simp)
    simp only [List.cons_append]
    rw [splitAtHeaderEnd, if_neg (by
      intro hcontra
      have h3 : some c = some '\r' := congrArg List.head? hcontra
      exact hc (Option.some.inj h3))]
    have hih := ih (fun x hx => h1 x (by simp [hx]))
    simp only [List.cons_append] at hih
    rw [hih]

theorem splitHeaderLines_noCR :
    ∀ l : List Char, (∀ x ∈ l, x ≠ '\r') → splitHeaderLines l = [l] := by
  intro l
  induction l with
  | nil => intro _; rfl
  | cons c cs ih =>
    intro h
    cases cs with
    | nil => rfl
    | cons d cs' =>
      have hc : c ≠ '\r' := h c (by simp)
      rw [splitHeaderLines, if_neg (by rintro ⟨rfl, -⟩; exact hc rfl)]
      rw [ih (fun x hx => h x (by simp [hx]))]

theorem splitHeaderLines_two (l2 : List Char) :
    ∀ l1 : List Char, (∀ x ∈ l1, x ≠ '\r') →
      splitHeaderLines (l1 ++ '\r' :: '\n' :: l2) = l1 :: splitHeaderLines l2 := by
  intro l1
  induction l1 with
  | nil =>
    intro _
    rw [List.nil_append, splitHeaderLines, if_pos ⟨rfl, rfl⟩]
  | cons c l1' ih =>
    intro h1
    have hc : c ≠ '\r' := h1 c (by simp)
    cases l1' with
    | nil =>
      simp only [List.nil_append, List.cons_append]
      rw [splitHeaderLines, if_neg (by rintro ⟨-, h⟩; exact absurd h (by decide))]
      rw [splitHeaderLines, if_pos ⟨rfl, rfl⟩]
    | cons c' l1'' =>
      simp only [List.cons_append]
      rw [splitHeaderLines, if_neg (by rintro ⟨rfl, -⟩; exact hc rfl)]
      have hih := ih (fun x hx => h1 x (by simp [hx]))
      simp only [List.cons_append] at hih
      rw [hih]

theorem splitAtColon_construct :
    ∀ name : List Char, (∀ x ∈ name, x ≠ ':') →
      ∀ v, splitAtColon (name ++ ':' :: v) = some (name, v) := by
  intro name
  induction name with
  | nil =>
    intro _ v
    rw [List.nil_append, splitAtColon, if_pos rfl]
  | cons c name' ih =>
    intro h v
    have hc : c ≠ ':' := h c (by simp)
    rw [List.cons_append, splitAtColon, if_neg hc,
      ih (fun x hx => h x (by simp [hx])) v]

/-! ## Helper lemmas: parsing the canonical frames -/

theorem mapSet_nil (k v : List Char) : mapSet [] k v = [(k, v)] := rfl

theorem parseHeaderLines_single (name v : List Char) (h : ∀ x ∈ name, x ≠ ':') :
    parseHeaderLines [name ++ ':' :: v] = [(name, trimSpaces v)] := by
  simp only [parseHeaderLines, List.foldl_cons, List.foldl_nil,
    splitAtColon_construct name h v]
  rfl

theorem parseHeaderLines_double (n1 v1 n2 v2 : List Char)
    (h1 : ∀ x ∈ n1, x ≠ ':') (h2 : ∀ x ∈ n2, x ≠ ':')
    (hne : (n1 == n2) = false) :
    parseHeaderLines [n1 ++ ':' :: v1, n2 ++ ':' :: v2] =
      [(n1, trimSpaces v1), (n2, trimSpaces v2)] := by
  simp only [parseHeaderLines, List.foldl_cons, List.foldl_nil,
    splitAtColon_construct n1 h1 v1, splitAtColon_construct n2 h2 v2]
  show mapSet (mapSet [] n1 (trimSpaces v1)) n2 (trimSpaces v2) = _
  rw [mapSet_nil]
  simp [mapSet, hne]

theorem clValue_of_lookup_digits (hdrs : List (List Char × List Char)) (n : Nat)
    (h : List.lookup clKey hdrs = some (natDigits n)) :
    clValue hdrs = .ok (n : Int) := by
  simp only [clValue, h]
  rw [if_neg (natDigits_ne_nil n), parseIntJS_natDigits]

theorem trimSpaces_natDigits (n : Nat) :
    trimSpaces (' ' :: natDigits n) = natDigits n := by
  apply trimSpaces_space
  intro c hc
  obtain ⟨h1, h2⟩ := natDigits_range n c hc
  exact beq_eq_false_iff_ne.mpr (char_ne_of_digit_range h1 h2).2.2.1

theorem clHeaderText_noCR : ∀ x ∈ "Content-Length: ".data, x ≠ '\r' := by decide

theorem clHeaderText_split :
    "Content-Length: ".data = "Content-Length".data ++ [':', ' '] := by decide

theorem clName_noColon : ∀ x ∈ "Content-Length".data, x ≠ ':' := by decide

theorem ctHeaderText_noCR : ∀ x ∈ "Content-Type: ".data, x ≠ '\r' := by decide

theorem ctHeaderText_split :
    "Content-Type: ".data = "Content-Type".data ++ [':', ' '] := by decide

theorem ctName_noColon : ∀ x ∈ "Content-Type".data, x ≠ ':' := by decide

theorem clHdrTxt_noCR (n : Nat) :
    ∀ x ∈ "Content-Length: ".data ++ natDigits n, x ≠ '\r' := by
  intro x hx
  rcases List.mem_append.mp hx with hx1 | hx2
  · exact clHeaderText_noCR x hx1
  · exact natDigits_ne_cr n x hx2

theorem tryReadHeaders_frameHeader (n : Nat) (rest : List Char) :
    tryReadHeaders (frameHeader n ++ rest) =
      some ([(clKey, natDigits n)], rest) := by
  have hshape : frameHeader n ++ rest =
      ("Content-Length: ".data ++ natDigits n) ++ '\r' :: '\n' :: '\r' :: '\n' :: rest := by
    simp [frameHeader, crlf]
  have hline : "Content-Length: ".data ++ natDigits n =
      "Content-Length".data ++ ':' :: (' ' :: natDigits n) := by
    rw [clHeaderText_split]
    simp
  rw [hshape, tryReadHeaders,
    splitAtHeaderEnd_construct _ (clHdrTxt_noCR n) rest, hline]
  show some (parseHeaderLines
      (splitHeaderLines ("Content-Length".data ++ ':' :: ' ' :: natDigits n)), rest) = _
  rw [splitHeaderLines_noCR _ (by rw [← hline]; exact clHdrTxt_noCR n),
    parseHeaderLines_single _ _ clName_noColon, trimSpaces_natDigits]
  rfl

theorem ctHdrTxt_noCR (ctv : List Char) (hcr : ∀ x ∈ ctv, x ≠ '\r') :
    ∀ x ∈ "Content-Type: ".data ++ ctv, x ≠ '\r' := by
  intro x hx
  rcases List.mem_append.mp hx with hx1 | hx2
  · exact ctHeaderText_noCR x hx1
  · exact hcr x hx2

theorem tryReadHeaders_frameCT (ctv b : List Char) (rest : List Char)
    (hcr : ∀ x ∈ ctv, x ≠ '\r') :
    tryReadHeaders (frameCT ctv b ++ rest) =
      some ([(clKey, natDigits b.length),
             ("Content-Type".data, trimSpaces (' ' :: ctv))], b ++ rest) := by
  have h2l := splitAtHeaderEnd_two_lines ("Content-Type: ".data ++ ctv)
    (ctHdrTxt_noCR ctv hcr) (by simp) (b ++ rest)
    ("Content-Length: ".data ++ natDigits b.length) (clHdrTxt_noCR b.length)
  have hshape : frameCT ctv b ++ rest =
      ("Content-Length: ".data ++ natDigits b.length) ++
        ('\r' :: '\n' :: ("Content-Type: ".data ++ ctv)) ++
        '\r' :: '\n' :: '\r' :: '\n' :: (b ++ rest) := by
    simp [frameCT, crlf]
  rw [hshape, tryReadHeaders, h2l]
  have hline1 : "Content-Length: ".data ++ natDigits b.length =
      "Content-Length".data ++ ':' :: (' ' :: natDigits b.length) := by
    rw [clHeaderText_split]
    simp
  have hline2 : "Content-Type: ".data ++ ctv =
      "Content-Type".data ++ ':' :: (' ' :: ctv) := by
    rw [ctHeaderText_split]
    simp
  have hlines : splitHeaderLines
      (("Content-Length: ".data ++ natDigits b.length) ++
        '\r' :: '\n' :: ("Content-Type: ".data ++ ctv)) =
      [("Content-Length: ".data ++ natDigits b.length),
       ("Content-Type: ".data ++ ctv)] := by
    rw [splitHeaderLines_two _ _ (clHdrTxt_noCR b.length),
      splitHeaderLines_noCR _ (ctHdrTxt_noCR ctv hcr)]
  show some (parseHeaderLines (splitHeaderLines
      (("Content-Length: ".data ++ natDigits b.length) ++
        '\r' :: '\n' :: ("Content-Type: ".data ++ ctv))), b ++ rest) = _
  rw [hlines, hline1, hline2,
    parseHeaderLines_double _ _ _ _ clName_noColon ctName_noColon (by decide),
    trimSpaces_natDigits]
  rfl

/-! ## Helper lemmas: the extraction loop -/

theorem tryReadHeaders_cases {buf : List Char}
    {hdrs : List (List Char × List Char)} {r : List Char}
    (h : tryReadHeaders buf = some (hdrs, r)) :
    ∃ hl, splitAtHeaderEnd buf = some (hl, r) ∧
      hdrs = parseHeaderLines (splitHeaderLines hl) := by
  rw [tryReadHeaders] at h
  cases hs : splitAtHeaderEnd buf with
  | none => rw [hs] at h; exact absurd h (by simp)
  | some p =>
    obtain ⟨hl, rr⟩ := p
    rw [hs] at h
    simp only [Option.some.injEq, Prod.mk.injEq] at h
    refine ⟨hl, ?_, h.1.symm⟩
    rw [h.2]

theorem tryReadHeaders_length {buf : List Char}
    {hdrs : List (List Char × List Char)} {r : List Char}
    (h : tryReadHeaders buf = some (hdrs, r)) : r.length + 4 ≤ buf.length := by
  obtain ⟨hl, hs, -⟩ := tryReadHeaders_cases h
  have := splitAtHeaderEnd_length hs
  omega

theorem tryReadHeaders_append {buf : List Char}
    {hdrs : List (List Char × List Char)} {r : List Char}
    (h : tryReadHeaders buf = some (hdrs, r)) (e : List Char) :
    tryReadHeaders (buf ++ e) = some (hdrs, r ++ e) := by
  obtain ⟨hl, hs, rfl⟩ := tryReadHeaders_cases h
  rw [tryReadHeaders, splitAtHeaderEnd_append buf hl r hs e]

theorem tryReadBody_case {n : Int} {buf b r : List Char}
    (h : tryReadBody n buf = some (b, r)) :
    ¬((buf.length : Int) < n) ∧ b = buf.take n.toNat ∧ r = buf.drop n.toNat := by
  by_cases hc : (buf.length : Int) < n
  · rw [tryReadBody, if_pos hc] at h
    exact absurd h (by simp)
  · rw [tryReadBody, if_neg hc] at h
    simp only [Option.some.injEq, Prod.mk.injEq] at h
    exact ⟨hc, h.1.symm, h.2.symm⟩

theorem tryReadBody_none {n : Int} {buf : List Char}
    (h : tryReadBody n buf = none) : (buf.length : Int) < n := by
  by_cases hc : (buf.length : Int) < n
  · exact hc
  · rw [tryReadBody, if_neg hc] at h
    exact absurd h (by simp)

theorem tryReadBody_append {n : Int} {buf b r : List Char}
    (h : tryReadBody n buf = some (b, r)) (e : List Char) :
    tryReadBody n (buf ++ e) = some (b, r ++ e) := by
  obtain ⟨hle, rfl, rfl⟩ := tryReadBody_case h
  have htoNat : n.toNat ≤ buf.length := by omega
  rw [tryReadBody, if_neg (by simp; omega),
    List.take_append_of_le_length htoNat, List.drop_append_of_le_length htoNat]

theorem tryReadBody_len_lt {n : Int} {buf b r : List Char}
    (h : tryReadBody n buf = some (b, r)) : r.length ≤ buf.length := by
  obtain ⟨-, -, rfl⟩ := tryReadBody_case h
  simp

theorem extractHdrFuel_congr :
    ∀ (f1 : Nat), ∀ (f2 : Nat) (buf : List Char), buf.length < f1 → buf.length < f2 →
      extractHdrFuel f1 buf = extractHdrFuel f2 buf := by
  intro f1
  induction f1 with
  | zero => intro f2 buf h1 _; omega
  | succ f1 ih =>
    intro f2 buf h1 h2
    cases f2 with
    | zero => omega
    | succ f2 =>
      rw [extractHdrFuel, extractHdrFuel]
      cases hh : tryReadHeaders buf with
      | none => simp only [hh]
      | some p =>
        obtain ⟨hdrs, rest⟩ := p
        have hrest := tryReadHeaders_length hh
        simp only [hh]
        cases hcv : clValue hdrs with
        | error e => simp only [hcv]
        | ok len =>
          simp only [hcv]
          cases hb : tryReadBody len rest with
          | none => simp only [hb]
          | some q =>
            obtain ⟨body, rest2⟩ := q
            have hr2 := tryReadBody_len_lt hb
            simp only [hb]
            rw [ih f2 rest2 (by omega) (by omega)]

theorem extractHdr_eq (buf : List Char) :
    extractHdr buf =
      match tryReadHeaders buf with
      | none => ⟨[], .ok ⟨-1, buf⟩⟩
      | some (hdrs, rest) =>
        match clValue hdrs with
        | .error e => ⟨[], .error e⟩
        | .ok len =>
          match tryReadBody len rest with
          | none => ⟨[], .ok ⟨len, rest⟩⟩
          | some (body, rest2) =>
            ⟨body :: (extractHdr rest2).bodies, (extractHdr rest2).result⟩ := by
  rw [extractHdr, extractHdrFuel]
  cases hh : tryReadHeaders buf with
  | none => simp only [hh]
  | some p =>
    obtain ⟨hdrs, rest⟩ := p
    have hrest := tryReadHeaders_length hh
    simp only [hh]
    cases hcv : clValue hdrs with
    | error e => simp only [hcv]
    | ok len =>
      simp only [hcv]
      cases hb : tryReadBody len rest with
      | none => simp only [hb]
      | some q =>
        obtain ⟨body, rest2⟩ := q
        have hr2 := tryReadBody_len_lt hb
        simp only [hb, extractHdr]
        rw [extractHdrFuel_congr buf.length (rest2.length + 1) rest2
          (by omega) (by omega)]

theorem extractHdr_blocked {buf : List Char} (h : tryReadHeaders buf = none) :
    extractHdr buf = ⟨[], .ok ⟨-1, buf⟩⟩ := by
  rw [extractHdr_eq, h]

theorem extractCore_neg_one (buf : List Char) : extractCore (-1) buf = extractHdr buf := by
  rw [extractCore, if_pos rfl]

/-- Every `ok` result state of the extraction loop is blocked: running the
loop on it again extracts nothing and leaves it unchanged. -/
theorem extractHdr_result_blocked :
    ∀ (k : Nat) (buf : List Char), buf.length ≤ k →
      ∀ bs s, extractHdr buf = ⟨bs, .ok s⟩ →
        extractCore s.nextMessageLength s.buffer = ⟨[], .ok s⟩ := by
  intro k
  induction k with
  | zero =>
    intro buf hk bs s h
    have hbuf : buf = [] := List.length_eq_zero.mp (by omega)
    subst hbuf
    have hbl : extractHdr [] = ⟨[], .ok ⟨-1, []⟩⟩ := extractHdr_blocked (by rfl)
    rw [hbl] at h
    simp only [ExtractOut.mk.injEq, Except.ok.injEq] at h
    rw [← h.2, extractCore_neg_one, hbl]
  | succ k ih =>
    intro buf hk bs s h
    rw [extractHdr_eq] at h
    cases hh : tryReadHeaders buf with
    | none =>
      simp only [hh] at h
      simp only [ExtractOut.mk.injEq, Except.ok.injEq] at h
      rw [← h.2, extractCore_neg_one, extractHdr_blocked hh]
    | some p =>
      obtain ⟨hdrs, rest⟩ := p
      have hrest := tryReadHeaders_length hh
      simp only [hh] at h
      cases hcv : clValue hdrs with
      | error e => simp only [hcv] at h; simp at h
      | ok len =>
        simp only [hcv] at h
        cases hb : tryReadBody len rest with
        | none =>
          simp only [hb] at h
          simp only [ExtractOut.mk.injEq, Except.ok.injEq] at h
          have hlt := tryReadBody_none hb
          have hlen : len ≠ -1 := by omega
          rw [← h.2]
          show extractCore len rest = ⟨[], .ok ⟨len, rest⟩⟩
          rw [extractCore, if_neg hlen, hb]
        | some q =>
          obtain ⟨body, rest2⟩ := q
          have hr2 := tryReadBody_len_lt hb
          simp only [hb] at h
          simp only [ExtractOut.mk.injEq] at h
          have hres : extractHdr rest2 = ⟨(extractHdr rest2).bodies, .ok s⟩ := by
            rw [← h.2]
          exact ih rest2 (by omega) (extractHdr rest2).bodies s hres

/-- Appending more bytes to the buffer lets the extraction loop pick up
exactly where a blocked run stopped; bodies already extracted and framing
errors already thrown are unaffected. -/
theorem extractHdr_append_main :
    ∀ (k : Nat) (buf : List Char), buf.length ≤ k → ∀ extra,
      extractHdr (buf ++ extra) =
        match (extractHdr buf).result with
        | .error e => ⟨(extractHdr buf).bodies, .error e⟩
        | .ok s =>
          ⟨(extractHdr buf).bodies ++
             (extractCore s.nextMessageLength (s.buffer ++ extra)).bodies,
           (extractCore s.nextMessageLength (s.buffer ++ extra)).result⟩ := by
  intro k
  induction k with
  | zero =>
    intro buf hk extra
    have hbuf : buf = [] := List.length_eq_zero.mp (by omega)
    subst hbuf
    have hbl : extractHdr [] = ⟨[], .ok ⟨-1, []⟩⟩ := extractHdr_blocked (by rfl)
    rw [hbl]
    simp only [List.nil_append, extractCore_neg_one]
  | succ k ih =>
    intro buf hk extra
    cases hh : tryReadHeaders buf with
    | none =>
      rw [extractHdr_blocked hh]
      simp only [List.nil_append, extractCore_neg_one]
    | some p =>
      obtain ⟨hdrs, rest⟩ := p
      have hrest := tryReadHeaders_length hh
      have hh2 := tryReadHeaders_append hh extra
      rw [extractHdr_eq buf]
      rw [extractHdr_eq (buf ++ extra), hh2]
      simp only [hh]
      cases hcv : clValue hdrs with
      | error e => simp only [hcv]
      | ok len =>
        simp only [hcv]
        cases hb : tryReadBody len rest with
        | none =>
          simp only [hb]
          have hlt := tryReadBody_none hb
          have hlen : len ≠ -1 := by omega
          cases hb2 : tryReadBody len (rest ++ extra) with
          | none =>
            simp only [hb2]
            show _ = ExtractOut.mk
              ([] ++ (extractCore len (rest ++ extra)).bodies)
              (extractCore len (rest ++ extra)).result
            rw [extractCore, if_neg hlen, hb2]
            simp
          | some q2 =>
            obtain ⟨body2, rest2'⟩ := q2
            simp only [hb2]
            show _ = ExtractOut.mk
              ([] ++ (extractCore len (rest ++ extra)).bodies)
              (extractCore len (rest ++ extra)).result
            rw [extractCore, if_neg hlen, hb2]
            simp
        | some q =>
          obtain ⟨body, rest2⟩ := q
          have hr2 := tryReadBody_len_lt hb
          have hb2 := tryReadBody_append hb extra
          simp only [hb, hb2]
          have hihr := ih rest2 (by omega) extra
          cases hres : (extractHdr rest2).result with
          | error e =>
            rw [hres] at hihr
            simp [hihr, hres]
          | ok s =>
            rw [hres] at hihr
            simp [hihr, hres]

theorem extractCore_append (n : Int) (buf extra : List Char) :
    extractCore n (buf ++ extra) =
      match (extractCore n buf).result with
      | .error e => ⟨(extractCore n buf).bodies, .error e⟩
      | .ok s =>
        ⟨(extractCore n buf).bodies ++
           (extractCore s.nextMessageLength (s.buffer ++ extra)).bodies,
         (extractCore s.nextMessageLength (s.buffer ++ extra)).result⟩ := by
  by_cases hn : n = -1
  · subst hn
    rw [extractCore_neg_one, extractCore_neg_one]
    exact extractHdr_append_main buf.length buf (le_refl _) extra
  · rw [extractCore, if_neg hn, extractCore, if_neg hn]
    cases hb : tryReadBody n buf with
    | none =>
      have hlt := tryReadBody_none hb
      simp only [hb]
      show _ = ExtractOut.mk ([] ++ (extractCore n (buf ++ extra)).bodies)
        (extractCore n (buf ++ extra)).result
      rw [extractCore, if_neg hn]
      simp
    | some q =>
      obtain ⟨body, rest2⟩ := q
      have hb2 := tryReadBody_append hb extra
      simp only [hb, hb2]
      have hihr := extractHdr_append_main rest2.length rest2 (le_refl _) extra
      cases hres : (extractHdr rest2).result with
      | error e =>
        rw [hres] at hihr
        simp [hihr, hres]
      | ok s =>
        rw [hres] at hihr
        simp [hihr, hres]

theorem extractCore_result_blocked {n : Int} {buf : List Char}
    {bs : List (List Char)} {s : RState}
    (h : extractCore n buf = ⟨bs, .ok s⟩) :
    extractCore s.nextMessageLength s.buffer = ⟨[], .ok s⟩ := by
  by_cases hn : n = -1
  · subst hn
    rw [extractCore_neg_one] at h
    exact extractHdr_result_blocked buf.length buf (le_refl _) bs s h
  · rw [extractCore, if_neg hn] at h
    cases hb : tryReadBody n buf with
    | none =>
      rw [hb] at h
      simp only [ExtractOut.mk.injEq, Except.ok.injEq] at h
      have hlt := tryReadBody_none hb
      rw [← h.2]
      show extractCore n buf = ⟨[], .ok ⟨n, buf⟩⟩
      rw [extractCore, if_neg hn, hb]
    | some q =>
      obtain ⟨body, rest2⟩ := q
      rw [hb] at h
      simp only [ExtractOut.mk.injEq] at h
      have hres : extractHdr rest2 = ⟨(extractHdr rest2).bodies, .ok s⟩ := by
        rw [← h.2]
      exact extractHdr_result_blocked rest2.length rest2 (le_refl _) _ s hres

theorem runChunks_flatten (opts : ResolvedOptions) :
    ∀ (chunks : List (List Char)) (st : RState),
      extractCore st.nextMessageLength st.buffer = ⟨[], .ok st⟩ →
      runChunks opts st chunks = processChunk opts st chunks.flatten := by
  intro chunks
  induction chunks with
  | nil =>
    intro st hq
    simp only [runChunks, List.flatten_nil, processChunk, List.append_nil, hq]
    rfl
  | cons c cs ih =>
    intro st hq
    have hassoc : st.buffer ++ (c :: cs).flatten = (st.buffer ++ c) ++ cs.flatten := by
      simp [List.flatten_cons]
    rw [runChunks]
    simp only [processChunk, List.flatten_cons]
    rw [← List.append_assoc]
    rw [extractCore_append st.nextMessageLength (st.buffer ++ c) cs.flatten]
    cases hres : (extractCore st.nextMessageLength (st.buffer ++ c)).result with
    | error e => simp
    | ok s' =>
      have hfull : extractCore st.nextMessageLength (st.buffer ++ c) =
          ⟨(extractCore st.nextMessageLength (st.buffer ++ c)).bodies, .ok s'⟩ := by
        rw [← hres]
      have hq' := extractCore_result_blocked hfull
      simp [ih s' hq', processChunk, List.map_append]

theorem lookup_clKey_head (d : List Char) (t : List (List Char × List Char)) :
    List.lookup clKey ((clKey, d) :: t) = some d := by
  simp [List.lookup]

theorem extractHdr_frames :
    ∀ bodies : List (List Char),
      extractHdr (bodies.map frame).flatten = ⟨bodies, .ok ⟨-1, []⟩⟩ := by
  intro bodies
  induction bodies with
  | nil => exact extractHdr_blocked (by rfl)
  | cons b bs ih =>
    have hsplit : ((b :: bs).map frame).flatten =
        frameHeader b.length ++ (b ++ (bs.map frame).flatten) := by
      simp [frame, List.flatten_cons]
    rw [hsplit, extractHdr_eq,
      tryReadHeaders_frameHeader b.length (b ++ (bs.map frame).flatten)]
    have hcl : clValue [(clKey, natDigits b.length)] = .ok (b.length : Int) :=
      clValue_of_lookup_digits _ _ (lookup_clKey_head _ [])
    simp only [hcl]
    have hbody : tryReadBody (b.length : Int) (b ++ (bs.map frame).flatten) =
        some (b, (bs.map frame).flatten) := by
      rw [tryReadBody, if_neg (by rw [List.length_append]; push_cast; omega)]
      simp only [Int.toNat_ofNat]
      rw [List.take_left' rfl, List.drop_left' rfl]
    simp only [hbody, ih]

/-- Claim C1 — framing robustness.  Deliver the concatenated bytes of any
list of well-framed messages to the reader (fresh from `listen`), split into
arbitrary chunks at arbitrary byte boundaries.  The listen callback receives
exactly one decoded message per body, in the original order, no framing
error is thrown, and the reader ends back in its initial blocked state. -/
theorem c1_framing_robustness (bodies : List (List Char)) (chunks : List (List Char))
    (hsplit : chunks.flatten = (bodies.map frame).flatten) :
    runChunks defaultOpts initRState chunks =
      (bodies.map REvent.message, .ok initRState) ∧
    (runChunks defaultOpts initRState chunks).1.length = bodies.length := by
  have hq : extractCore initRState.nextMessageLength initRState.buffer =
      ⟨[], .ok initRState⟩ := by
    show extractCore (-1) [] = ⟨[], .ok initRState⟩
    rw [extractCore_neg_one]
    exact extractHdr_blocked (by rfl)
  have h1 : runChunks defaultOpts initRState chunks =
      processChunk defaultOpts initRState chunks.flatten :=
    runChunks_flatten defaultOpts chunks initRState hq
  have h2 : processChunk defaultOpts initRState chunks.flatten =
      (bodies.map REvent.message, .ok initRState) := by
    rw [processChunk, hsplit]
    show ((extractCore (-1) ([] ++ (bodies.map frame).flatten)).bodies.map _,
      (extractCore (-1) ([] ++ (bodies.map frame).flatten)).result) = _
    rw [List.nil_append, extractCore_neg_one, extractHdr_frames bodies]
    simp only [List.map_map]
    rfl
  refine ⟨h1.trans h2, ?_⟩
  rw [h1, h2]
  simp

/-- Witness for C1: two messages, with bodies `"a"` and `"bc"`, delivered in
three chunks whose boundaries fall inside the first header and inside the
second message's header. -/
theorem c1_witness :
    (["Content-L".data, "ength: 1\r\n\r\naContent-Length: 2\r".data,
        "\n\r\nbc".data].flatten = ([['a'], ['b', 'c']].map frame).flatten) ∧
    runChunks defaultOpts initRState
        ["Content-L".data, "ength: 1\r\n\r\naContent-Length: 2\r".data,
          "\n\r\nbc".data] =
      ([['a'], ['b', 'c']].map REvent.message, .ok initRState) := by
  refine ⟨by decide, ?_⟩
  exact (c1_framing_robustness [['a'], ['b', 'c']] _ (by decide)).1

/-- Claim C3 — decode failures are non-fatal and framing-preserving.  For any
resolved options (any content decoder and content-type decoder, each of which
may fail on any body), delivering well-framed messages in arbitrary chunks
never throws: every body produces exactly one event in order — `message` on
decode success, an `onError` `error` event on decode failure — the reader
ends in its initial blocked state (`nextMessageLength` reset to `-1`, empty
buffer), and a failing body never suppresses the delivery of the messages
after it. -/
theorem c3_decode_errors_nonfatal (opts : ResolvedOptions)
    (bodies : List (List Char)) (chunks : List (List Char))
    (hsplit : chunks.flatten = (bodies.map frame).flatten) :
    runChunks opts initRState chunks =
      (bodies.map (eventOf opts), .ok initRState) ∧
    (∀ pre bad post e, bodies = pre ++ bad :: post → eventOf opts bad = .error e →
      (runChunks opts initRState chunks).1 =
        pre.map (eventOf opts) ++ .error e :: post.map (eventOf opts)) := by
  have hq : extractCore initRState.nextMessageLength initRState.buffer =
      ⟨[], .ok initRState⟩ := by
    show extractCore (-1) [] = ⟨[], .ok initRState⟩
    rw [extractCore_neg_one]
    exact extractHdr_blocked (by rfl)
  have h1 : runChunks opts initRState chunks =
      processChunk opts initRState chunks.flatten :=
    runChunks_flatten opts chunks initRState hq
  have h2 : processChunk opts initRState chunks.flatten =
      (bodies.map (eventOf opts), .ok initRState) := by
    rw [processChunk, hsplit]
    show ((extractCore (-1) ([] ++ (bodies.map frame).flatten)).bodies.map _,
      (extractCore (-1) ([] ++ (bodies.map frame).flatten)).result) = _
    rw [List.nil_append, extractCore_neg_one, extractHdr_frames bodies]
    rfl
  refine ⟨h1.trans h2, ?_⟩
  intro pre bad post e hb he
  rw [h1, h2, hb]
  simp [he]

/-- Witness for C3: a content-type decoder that rejects the body `"a"` but
accepts everything else; the failure surfaces as an error event while the
following message is still decoded and delivered, and the framing state is
back to initial. -/
theorem c3_witness :
    runChunks
        ⟨"utf-8", none, [],
          ⟨"picky", fun bytes => if bytes = ['a'] then .error "boom" else .ok bytes⟩,
          []⟩
        initRState [(([['a'], ['b']].map frame).flatten)] =
      ([REvent.error "boom", REvent.message ['b']], .ok initRState) := by
  exact (c3_decode_errors_nonfatal _ [['a'], ['b']] _ (by simp)).1

/-- Claim C2 — missing or non-numeric `Content-Length` is fatal.  Whenever
the reader is in the header-reading phase and a complete header block is
available, a block whose headers lack `Content-Length` (or carry the falsy
empty value), or whose value does not parse as a number, makes `onData`
throw the corresponding framing error: no message is delivered for those
bytes and reading does not continue past the bad block. -/
theorem c2_content_length_fatal (opts : ResolvedOptions) (st : RState)
    (chunk : List Char) (hdrs : List (List Char × List Char)) (rest : List Char)
    (hn : st.nextMessageLength = -1)
    (hh : tryReadHeaders (st.buffer ++ chunk) = some (hdrs, rest)) :
    ((List.lookup clKey hdrs = none ∨ List.lookup clKey hdrs = some []) →
      processChunk opts st chunk = ([], .error errNoContentLength)) ∧
    (∀ v, List.lookup clKey hdrs = some v → v ≠ [] → parseIntJS v = none →
      processChunk opts st chunk = ([], .error errBadContentLength)) := by
  have hstep : ∀ e, clValue hdrs = .error e →
      processChunk opts st chunk = ([], .error e) := by
    intro e hcv
    rw [processChunk, hn, extractCore_neg_one, extractHdr_eq, hh]
    simp only [hcv]
    rfl
  constructor
  · intro hmiss
    apply hstep
    rcases hmiss with hmiss | hmiss
    · rw [clValue, hmiss]
    · simp [clValue, hmiss]
  · intro v hv hvne hparse
    apply hstep
    simp [clValue, hv, hvne, hparse]

/-- Witness for C2: a complete header block with no `Content-Length` header
throws the missing-header error, and one whose `Content-Length` value is
`abc` throws the non-numeric error; in both runs no message is delivered. -/
theorem c2_witness :
    processChunk defaultOpts initRState ("Foo: 3\r\n\r\nxx".data) =
      ([], .error errNoContentLength) ∧
    processChunk defaultOpts initRState ("Content-Length: abc\r\n\r\nxx".data) =
      ([], .error errBadContentLength) := by
  constructor
  · exact (c2_content_length_fatal defaultOpts initRState _
      [("Foo".data, "3".data)] ("xx".data) rfl (by decide)).1 (by decide)
  · exact (c2_content_length_fatal defaultOpts initRState _
      [(clKey, "abc".data)] ("xx".data) rfl (by decide)).2 ("abc".data)
      (by decide) (by decide) (by decide)

/-- Counterexample for C7.  Resolve reader options that register a
content-type decoder named `alt` (which decodes every body to `['X']`), then
deliver a well-framed message with header `Content-Type: alt` and body `"a"`.
The delivered message is the default JSON decoder's output `['a']`, not the
`alt` decoder's `['X']`: `onData` uses the construction-time
`options.contentTypeDecoder` and never consults the `Content-Type` header,
so the claim "selected by the message's Content-Type header value" is false
on this input. -/
theorem c7_counterexample :
    ((fromOptions (some (.inr
        { contentTypeDecoders := some [⟨"alt", fun _ => .ok ['X']⟩] })))
        |>.contentTypeDecoders.lookup "alt").map (fun d => d.decode ['a']) =
      some (.ok ['X']) ∧
    processChunk
        (fromOptions (some (.inr
          { contentTypeDecoders := some [⟨"alt", fun _ => .ok ['X']⟩] })))
        initRState (frameCT "alt".data ['a']) =
      ([REvent.message ['a']], .ok initRState) ∧
    REvent.message ['a'] ≠ REvent.message ['X'] := by
  refine ⟨rfl, ?_, by decide⟩
  rfl

/-- Claim C7 as amended.  The content-type decoder that turns body bytes into
a message is fixed when the options are resolved at construction: for every
resolved options value and every message framed with an arbitrary
`Content-Type` header value, the delivered event is
`eventOf opts`, which applies `opts.contentTypeDecoder` — the header value
plays no role.  Moreover an options value without an explicit
`contentTypeDecoder`, and the default construction, resolve to the
`application/json` decoder. -/
theorem c7_decoder_fixed_at_construction (opts : ResolvedOptions)
    (ctv body : List Char) (hcr : ∀ x ∈ ctv, x ≠ '\r') :
    processChunk opts initRState (frameCT ctv body) =
      ([eventOf opts body], .ok initRState) ∧
    (∀ o : MessageReaderOptions, o.contentTypeDecoder = none →
      (fromOptions (some (.inr o))).contentTypeDecoder = applicationJsonDecoder) ∧
    (fromOptions none).contentTypeDecoder = applicationJsonDecoder := by
  refine ⟨?_, ?_, rfl⟩
  · have hh := tryReadHeaders_frameCT ctv body [] hcr
    rw [List.append_nil, List.append_nil] at hh
    rw [processChunk]
    show ((extractCore (-1) ([] ++ frameCT ctv body)).bodies.map _,
      (extractCore (-1) ([] ++ frameCT ctv body)).result) = _
    rw [List.nil_append, extractCore_neg_one, extractHdr_eq, hh]
    have hcl : clValue [(clKey, natDigits body.length),
        ("Content-Type".data, trimSpaces (' ' :: ctv))] = .ok (body.length : Int) :=
      clValue_of_lookup_digits _ _ (lookup_clKey_head _ _)
    simp only [hcl]
    have hbody : tryReadBody (body.length : Int) body = some (body, []) := by
      rw [tryReadBody, if_neg (by omega)]
      simp
    simp only [hbody, extractHdr_blocked (show tryReadHeaders [] = none from rfl)]
    rfl
  · intro o ho
    simp [fromOptions, ho]

/-- Witness for C7: a concrete message with `Content-Type: application/foo`
under the default options still decodes through the construction-time
(JSON) decoder. -/
theorem c7_witness :
    processChunk defaultOpts initRState (frameCT "application/foo".data ['z']) =
      ([eventOf defaultOpts ['z']], .ok initRState) :=
  (c7_decoder_fixed_at_construction defaultOpts "application/foo".data ['z']
    (by decide)).1

/-! ## Helper lemmas: the partial-message timer -/

theorem fireFuel_congr :
    ∀ (f1 f2 : Nat) (timeout : Int) (mtok : Nat) (t : Int) (tmr : Option PTimer),
      fireFuelFor t tmr ≤ f1 → fireFuelFor t tmr ≤ f2 →
      fireFuel f1 timeout mtok t tmr = fireFuel f2 timeout mtok t tmr := by
  intro f1
  induction f1 with
  | zero =>
    intro f2 timeout mtok t tmr h1 h2
    cases tmr <;> simp [fireFuelFor] at h1
  | succ f1 ih =>
    intro f2 timeout mtok t tmr h1 h2
    cases f2 with
    | zero => cases tmr <;> simp [fireFuelFor] at h2
    | succ f2 =>
      cases tmr with
      | none => rfl
      | some tm =>
        simp only [fireFuelFor] at h1 h2
        rw [fireFuel, fireFuel]
        by_cases hdl : tm.deadline ≤ t
        · rw [if_pos hdl, if_pos hdl]
          by_cases htok : tm.token = mtok
          · rw [if_pos htok, if_pos htok]
            have hbound1 : fireFuelFor t (setTimerModel timeout mtok tm.deadline) ≤ f1 := by
              by_cases hto : timeout ≤ 0
              · simp only [setTimerModel, if_pos hto, fireFuelFor]
                omega
              · simp only [setTimerModel, if_neg hto, fireFuelFor]
                omega
            have hbound2 : fireFuelFor t (setTimerModel timeout mtok tm.deadline) ≤ f2 := by
              by_cases hto : timeout ≤ 0
              · simp only [setTimerModel, if_pos hto, fireFuelFor]
                omega
              · simp only [setTimerModel, if_neg hto, fireFuelFor]
                omega
            simp only [ih f2 timeout mtok t
              (setTimerModel timeout mtok tm.deadline) hbound1 hbound2]
          · rw [if_neg htok, if_neg htok]
        · rw [if_neg hdl, if_neg hdl]

theorem fireTimers_none (timeout : Int) (mtok : Nat) (t : Int) :
    fireTimers timeout mtok t none = (none, []) := rfl

theorem fireTimers_eq (timeout : Int) (mtok : Nat) (t : Int) (tm : PTimer) :
    fireTimers timeout mtok t (some tm) =
      if tm.deadline ≤ t then
        if tm.token = mtok then
          ((fireTimers timeout mtok t (setTimerModel timeout mtok tm.deadline)).1,
            .waiting tm.token tm.waiting ::
              (fireTimers timeout mtok t (setTimerModel timeout mtok tm.deadline)).2)
        else (none, [])
      else (some tm, []) := by
  by_cases hdl : tm.deadline ≤ t
  · by_cases htok : tm.token = mtok
    · rw [if_pos hdl, if_pos htok, fireTimers]
      simp only [fireFuelFor]
      rw [fireFuel, if_pos hdl, if_pos htok]
      have hb1 : fireFuelFor t (setTimerModel timeout mtok tm.deadline) ≤
          (t + 1 - tm.deadline).toNat := by
        by_cases hto : timeout ≤ 0
        · simp only [setTimerModel, if_pos hto, fireFuelFor]
          omega
        · simp only [setTimerModel, if_neg hto, fireFuelFor]
          omega
      simp only [fireFuel_congr ((t + 1 - tm.deadline).toNat)
        (fireFuelFor t (setTimerModel timeout mtok tm.deadline)) timeout mtok t
        (setTimerModel timeout mtok tm.deadline) hb1 (le_refl _)]
      rfl
    · rw [if_pos hdl, if_neg htok, fireTimers]
      simp only [fireFuelFor]
      rw [fireFuel, if_pos hdl, if_neg htok]
  · rw [if_neg hdl, fireTimers]
    simp only [fireFuelFor]
    rw [fireFuel, if_neg hdl]

theorem waitingEvents_append (a b : List TEvent) :
    waitingEvents (a ++ b) = waitingEvents a ++ waitingEvents b := by
  simp [waitingEvents, List.filterMap_append]

theorem waitingEvents_ofREvent (l : List REvent) :
    waitingEvents (l.map TEvent.ofREvent) = [] := by
  induction l with
  | nil => rfl
  | cons ev t ih =>
    cases ev <;> simpa [waitingEvents, TEvent.ofREvent] using ih

theorem dataStep_no_timer (opts : ResolvedOptions) (T : Int) (hT : T ≤ 0)
    (s : TimedState) (hs : s.timer = none) (t : Int) (c : List Char) :
    waitingEvents (dataStep opts T s t c).2.1 = [] ∧
      (dataStep opts T s t c).1.timer = none := by
  rw [dataStep, hs, fireTimers_none]
  cases hres : (extractCore s.rst.nextMessageLength (s.rst.buffer ++ c)).result with
  | error e =>
    simp only [hres]
    constructor
    · show waitingEvents ([] ++ _ ++ [TEvent.error e]) = []
      rw [waitingEvents_append, waitingEvents_append, waitingEvents_ofREvent]
      rfl
    · trivial
  | ok s' =>
    simp only [hres]
    constructor
    · show waitingEvents ([] ++ _) = []
      rw [List.nil_append, waitingEvents_ofREvent]
    · show (if s'.nextMessageLength ≠ -1 then setTimerModel T s.messageToken t
        else if (extractCore s.rst.nextMessageLength (s.rst.buffer ++ c)).bodies ≠ []
          then none else none) = none
      rw [setTimerModel, if_pos hT]
      split
      · rfl
      · split <;> rfl

theorem runTimed_no_waiting_of_no_timer (opts : ResolvedOptions) (T : Int)
    (hT : T ≤ 0) :
    ∀ (tl : List (Int × List Char)) (s : TimedState), s.timer = none →
      waitingEvents (runTimed opts T s tl).2 = [] ∧
        (runTimed opts T s tl).1.timer = none := by
  intro tl
  induction tl with
  | nil => intro s hs; exact ⟨rfl, hs⟩
  | cons tc rest ih =>
    obtain ⟨t, c⟩ := tc
    intro s hs
    obtain ⟨hev, htm⟩ := dataStep_no_timer opts T hT s hs t c
    rw [runTimed]
    cases hds : dataStep opts T s t c with
    | mk s1 p =>
      obtain ⟨evs, ok⟩ := p
      rw [hds] at hev htm
      cases ok with
      | false => exact ⟨hev, htm⟩
      | true =>
        obtain ⟨ihev, ihtm⟩ := ih s1 htm
        refine ⟨?_, ihtm⟩
        rw [waitingEvents_append, hev, ihev]
        rfl

/-- Claim C4 — timeout default and suppression.  The reader's
`_partialMessageTimeout` is `10000` ms on construction, and after setting any
timeout `T ≤ 0` through the `partialMessageTimeout` setter, no
partial-message event is ever fired, whatever timeline of timestamped chunks
is delivered while waiting for body bytes. -/
theorem c4_default_and_nonpositive_timeout (T : Int) (hT : T ≤ 0)
    (tl : List (Int × List Char)) :
    mkReader.timeoutMs = 10000 ∧
    waitingEvents (runTimed defaultOpts (setTimeoutMs mkReader T).timeoutMs
      (setTimeoutMs mkReader T).state tl).2 = [] := by
  refine ⟨rfl, ?_⟩
  exact (runTimed_no_waiting_of_no_timer defaultOpts T hT tl
    (setTimeoutMs mkReader T).state rfl).1

/-- Witness for C4: with the timeout set to `0`, delivering a header that
leaves the reader waiting for three body bytes fires no partial-message
event; the constructor default is `10000`. -/
theorem c4_witness :
    mkReader.timeoutMs = 10000 ∧
    waitingEvents (runTimed defaultOpts (setTimeoutMs mkReader 0).timeoutMs
      (setTimeoutMs mkReader 0).state [(0, frameHeader 3), (20000, "abc".data)]).2 = [] :=
  c4_default_and_nonpositive_timeout 0 (by decide) [(0, frameHeader 3), (20000, "abc".data)]

theorem dataStep_messageToken (opts : ResolvedOptions) (T : Int) (s : TimedState)
    (t : Int) (c : List Char) :
    (dataStep opts T s t c).1.messageToken = s.messageToken := by
  rw [dataStep]
  cases hres : (extractCore s.rst.nextMessageLength (s.rst.buffer ++ c)).result with
  | error e => simp only [hres]
  | ok s' => simp only [hres]

theorem runTimed_messageToken (opts : ResolvedOptions) (T : Int) :
    ∀ (tl : List (Int × List Char)) (s : TimedState),
      (runTimed opts T s tl).1.messageToken = s.messageToken := by
  intro tl
  induction tl with
  | nil => intro s; rfl
  | cons tc rest ih =>
    obtain ⟨t, c⟩ := tc
    intro s
    have htok := dataStep_messageToken opts T s t c
    rw [runTimed]
    cases hds : dataStep opts T s t c with
    | mk s1 p =>
      obtain ⟨evs, ok⟩ := p
      rw [hds] at htok
      cases ok with
      | false => exact htok
      | true => rw [ih s1]; exact htok

/-- Counterexample for C5.  Timeout 10; at time 0 the header of a one-byte
message arrives (body accumulation starts, the pending timer captures token
0); at time 1 the body arrives together with the header of a second one-byte
message, so the first message completes and body accumulation restarts for
the second.  The claim says a new message sequence number is assigned at
this restart — but `messageToken` is still `0`, equal to its value during
the first message's accumulation, and the freshly scheduled timer captures
that same token `0`: the code never increments `messageToken`. -/
theorem c5_counterexample :
    (runTimed defaultOpts 10 mkReader.state
        [(0, frameHeader 1), (1, "a".data ++ frameHeader 1)]).2 =
      [TEvent.message ['a']] ∧
    (runTimed defaultOpts 10 mkReader.state
        [(0, frameHeader 1), (1, "a".data ++ frameHeader 1)]).1.rst.nextMessageLength = 1 ∧
    (runTimed defaultOpts 10 mkReader.state
        [(0, frameHeader 1), (1, "a".data ++ frameHeader 1)]).1.messageToken =
      mkReader.state.messageToken ∧
    (runTimed defaultOpts 10 mkReader.state
        [(0, frameHeader 1), (1, "a".data ++ frameHeader 1)]).1.timer =
      some ⟨0, 10, 11⟩ := by
  refine ⟨?_, ?_, ?_, ?_⟩ <;> decide

/-- Claim C5 as amended.  (1) While a body is incomplete, a due timer whose
captured token matches the reader's `messageToken` fires the partial-message
event and reschedules itself through `setPartialMessageTimer`.  (2) When a
message's body completes and no further message is pending, the timer is
cleared, which is what prevents a stale timer from firing against a later
message.  (3) `messageToken` itself is never reassigned while reading: it
stays at the value `0` set by `listen`, for every timeout and timeline — no
new sequence number is ever assigned. -/
theorem c5_timer_reschedule_and_constant_token :
    (∀ (timeout : Int) (mtok : Nat) (t : Int) (tm : PTimer),
      tm.deadline ≤ t → tm.token = mtok →
      fireTimers timeout mtok t (some tm) =
        ((fireTimers timeout mtok t (setTimerModel timeout mtok tm.deadline)).1,
          .waiting tm.token tm.waiting ::
            (fireTimers timeout mtok t (setTimerModel timeout mtok tm.deadline)).2)) ∧
    (∀ (opts : ResolvedOptions) (T : Int) (s : TimedState) (t : Int) (c : List Char)
        (bs : List (List Char)) (s' : RState),
      extractCore s.rst.nextMessageLength (s.rst.buffer ++ c) = ⟨bs, .ok s'⟩ →
      s'.nextMessageLength = -1 → bs ≠ [] →
      (dataStep opts T s t c).1.timer = none) ∧
    (∀ (T : Int) (tl : List (Int × List Char)),
      (runTimed defaultOpts T mkReader.state tl).1.messageToken = 0) := by
  refine ⟨?_, ?_, ?_⟩
  · intro timeout mtok t tm hdl htok
    rw [fireTimers_eq, if_pos hdl, if_pos htok]
  · intro opts T s t c bs s' hx hnext hbs
    have hres : (extractCore s.rst.nextMessageLength (s.rst.buffer ++ c)).result =
        .ok s' := by rw [hx]
    have hbodies : (extractCore s.rst.nextMessageLength (s.rst.buffer ++ c)).bodies =
        bs := by rw [hx]
    rw [dataStep]
    simp only [hres]
    show (if s'.nextMessageLength ≠ -1 then setTimerModel T s.messageToken t
      else if (extractCore s.rst.nextMessageLength (s.rst.buffer ++ c)).bodies ≠ []
        then none
        else (fireTimers T s.messageToken t s.timer).1) = none
    rw [if_neg (by rw [hnext]; exact fun hcon => hcon rfl), hbodies, if_pos hbs]
  · intro T tl
    exact runTimed_messageToken defaultOpts T tl mkReader.state

/-- Witness for C5's amended statement: a due timer with the matching token
`0` fires and reschedules; completing the one-byte message `"a"` in a single
chunk clears the timer; and the `messageToken` after the counterexample
timeline is still `0`. -/
theorem c5_witness :
    fireTimers 10 0 15 (some ⟨0, 10, 10⟩) =
      ((fireTimers 10 0 15 (setTimerModel 10 0 10)).1,
        .waiting 0 10 :: (fireTimers 10 0 15 (setTimerModel 10 0 10)).2) ∧
    (dataStep defaultOpts 10 mkReader.state 0 (frame "a".data)).1.timer = none ∧
    (runTimed defaultOpts 10 mkReader.state
      [(0, frameHeader 1), (1, "a".data ++ frameHeader 1)]).1.messageToken = 0 := by
  refine ⟨?_, ?_, ?_⟩
  · exact c5_timer_reschedule_and_constant_token.1 10 0 15 ⟨0, 10, 10⟩
      (by decide) (by decide)
  · exact c5_timer_reschedule_and_constant_token.2.1 defaultOpts 10 mkReader.state 0
      (frame "a".data) ["a".data] ⟨-1, []⟩ (by decide) (by decide) (by decide)
  · exact c5_timer_reschedule_and_constant_token.2.2 10
      [(0, frameHeader 1), (1, "a".data ++ frameHeader 1)]

theorem extractHdr_frameHeader_blocked (n : Nat) (hn : 1 ≤ n) :
    extractHdr (frameHeader n) = ⟨[], .ok ⟨(n : Int), []⟩⟩ := by
  have hh := tryReadHeaders_frameHeader n []
  rw [List.append_nil] at hh
  rw [extractHdr_eq, hh]
  have hcl : clValue [(clKey, natDigits n)] = .ok (n : Int) :=
    clValue_of_lookup_digits _ n (lookup_clKey_head _ [])
  simp only [hcl]
  have hb : tryReadBody (n : Int) [] = none := by
    rw [tryReadBody, if_pos (by simp; omega)]
  simp only [hb]

theorem fireTimers_replicate (T : Int) (hT : 0 < T) (mtok : Nat) (t : Int) :
    ∀ (m : Nat) (dl : Int), (t + 1 - dl).toNat ≤ m → dl ≤ t →
      ∃ k, 1 ≤ k ∧ (fireTimers T mtok t (some ⟨mtok, T, dl⟩)).2 =
        List.replicate k (TEvent.waiting mtok T) := by
  intro m
  induction m with
  | zero => intro dl hm hdl; omega
  | succ m ih =>
    intro dl hm hdl
    rw [fireTimers_eq, if_pos hdl, if_pos rfl]
    rw [setTimerModel, if_neg (by omega)]
    by_cases hdl2 : dl + T ≤ t
    · obtain ⟨k, hk1, hk2⟩ := ih (dl + T) (by omega) hdl2
      refine ⟨k + 1, by omega, ?_⟩
      show TEvent.waiting mtok T :: (fireTimers T mtok t (some ⟨mtok, T, dl + T⟩)).2 = _
      rw [hk2, List.replicate_succ]
    · refine ⟨1, le_refl 1, ?_⟩
      show TEvent.waiting mtok T :: (fireTimers T mtok t (some ⟨mtok, T, dl + T⟩)).2 = _
      rw [fireTimers_eq, if_neg hdl2]
      rfl

/-- Counterexample for C6.  Timeout `T = 5 > 0`; the header announcing a
three-byte body arrives at time 0 and the full body only at time `11 > 2·T`.
Two partial-message events fire before the message completes — a genuine
instance of the claim's scenario — but their `waitingTime` values are `5`
and `5`: the callback always reports the captured timeout, so the values are
not strictly increasing, refuting the claim. -/
theorem c6_counterexample :
    (runTimed defaultOpts 5 mkReader.state [(0, frameHeader 3), (11, "abc".data)]).2 =
      [TEvent.waiting 0 5, TEvent.waiting 0 5, TEvent.message "abc".data] ∧
    (waitingEvents (runTimed defaultOpts 5 mkReader.state
      [(0, frameHeader 3), (11, "abc".data)]).2).map Prod.snd = [5, 5] ∧
    ¬ List.Chain' (· < ·) ((waitingEvents (runTimed defaultOpts 5 mkReader.state
      [(0, frameHeader 3), (11, "abc".data)]).2).map Prod.snd) ∧
    (2 * 5 : Int) < 11 ∧ (0 : Int) < 5 := by
  refine ⟨by decide, by decide, ?_, by decide, by decide⟩
  intro hchain
  have : ((waitingEvents (runTimed defaultOpts 5 mkReader.state
      [(0, frameHeader 3), (11, "abc".data)]).2).map Prod.snd) = [(5 : Int), 5] := by
    decide
  rw [this] at hchain
  exact absurd (List.chain'_cons.mp hchain).1 (by decide)

/-- The decode pipeline of the default options delivers every body as a
message. -/
theorem eventOf_default (b : List Char) : eventOf defaultOpts b = .message b := rfl

/-- Claim C6 as amended.  For every timeout `T > 0` and nonempty body whose
bytes only arrive at a time `t2 > 2·T` after the header, at least one
partial-message event fires before the message completes — but every such
event carries the same `waitingTime`, namely the captured timeout `T` (the
values are constant, not strictly increasing): the run's events are some
positive number of `waiting 0 T` events followed by the decoded message. -/
theorem c6_waiting_time_constant (T : Int) (hT : 0 < T) (body : List Char)
    (hb : body ≠ []) (t2 : Int) (ht : 2 * T < t2) :
    ∃ k, 1 ≤ k ∧
      (runTimed defaultOpts T mkReader.state
        [(0, frameHeader body.length), (t2, body)]).2 =
      List.replicate k (TEvent.waiting 0 T) ++ [TEvent.message body] := by
  have hn : 1 ≤ body.length := List.length_pos.mpr hb
  have hne : ((body.length : Int)) ≠ -1 := by omega
  have hnle : ¬(T ≤ 0) := not_le.mpr hT
  have hex : extractCore mkReader.state.rst.nextMessageLength
      (mkReader.state.rst.buffer ++ frameHeader body.length) =
      ⟨[], .ok ⟨(body.length : Int), []⟩⟩ := by
    show extractCore (-1) ([] ++ frameHeader body.length) = _
    rw [List.nil_append, extractCore_neg_one,
      extractHdr_frameHeader_blocked body.length hn]
  have hstep1 : dataStep defaultOpts T mkReader.state 0 (frameHeader body.length) =
      (⟨⟨(body.length : Int), []⟩, 0, some ⟨0, T, T⟩⟩, [], true) := by
    rw [dataStep]
    simp only [hex, fireTimers_none]
    simp [mkReader, initRState, setTimerModel, hne, hnle, fireTimers_none]
  obtain ⟨k, hk1, hk2⟩ := fireTimers_replicate T hT 0 t2
    ((t2 + 1 - T).toNat) T (le_refl _) (by omega)
  refine ⟨k, hk1, ?_⟩
  have hex2 : extractCore (body.length : Int) ([] ++ body) =
      ⟨[body], .ok ⟨-1, []⟩⟩ := by
    rw [List.nil_append, extractCore, if_neg hne]
    have hbod : tryReadBody (body.length : Int) body = some (body, []) := by
      rw [tryReadBody, if_neg (by omega)]
      simp
    simp only [hbod, extractHdr_blocked (show tryReadHeaders [] = none from rfl)]
  have hstep2 : dataStep defaultOpts T
      ⟨⟨(body.length : Int), []⟩, 0, some ⟨0, T, T⟩⟩ t2 body =
      (⟨⟨-1, []⟩, 0, none⟩,
        List.replicate k (TEvent.waiting 0 T) ++ [TEvent.message body], true) := by
    rw [dataStep]
    simp only [hex2, hk2, eventOf_default]
    simp [hk2, eventOf_default, TEvent.ofREvent]
  simp only [runTimed, hstep1, hstep2]
  simp

/-- Witness for C6's amended statement: `T = 5`, body `"x"`, completion at
time `11 > 10`. -/
theorem c6_witness :
    ∃ k, 1 ≤ k ∧
      (runTimed defaultOpts 5 mkReader.state
        [(0, frameHeader ("x".data).length), (11, "x".data)]).2 =
      List.replicate k (TEvent.waiting 0 5) ++ [TEvent.message "x".data] :=
  c6_waiting_time_constant 5 (by decide) "x".data (by decide) 11 (by decide)

/-- Counterexample for C8.  `AbstractMessageReader.dispose` disposes only
`errorEmitter` and `closeEmitter` (lines 104–107): after `dispose` on a
freshly constructed reader, the `partialMessageEmitter` backing
`onPartialMessage` is still not disposed, so the claim that every emitter
backing the reader's events is disposed is false. -/
theorem c8_counterexample :
    (readerDispose emittersInit).errorEmitterDisposed = true ∧
    (readerDispose emittersInit).closeEmitterDisposed = true ∧
    (readerDispose emittersInit).pmEmitterDisposed = false := by
  refine ⟨rfl, rfl, rfl⟩

/-- Claim C8 as amended.  `dispose` disposes the `errorEmitter` and the
`closeEmitter`, and leaves the `partialMessageEmitter` exactly as it was —
it is never disposed by `dispose`. -/
theorem c8_dispose_two_of_three (s : EmitterState) :
    (readerDispose s).errorEmitterDisposed = true ∧
    (readerDispose s).closeEmitterDisposed = true ∧
    (readerDispose s).pmEmitterDisposed = s.pmEmitterDisposed := by
  refine ⟨rfl, rfl, rfl⟩

/-- Code bug found for C9.  On `originalSequence = [1,2,3]` and
`modifiedSequence = [1,2,4,1,2,3]` the common prefix (`[1,2]`) and the
common suffix (`[1,2,3]`) overlap; `computeDiff` then returns the single
edit `{start := 2, deleteCount := -1, data := [4,1]}`.  A negative
`deleteCount` is not a valid edit (the protocol type is a `uinteger`), and
applying it splice-style to the original sequence yields `[1,2,4,1,3]`,
which is not the modified sequence — so the returned edits do not transform
`originalSequence` into `modifiedSequence`. -/
theorem c9_computeDiff_negative_deleteCount :
    computeDiff [1, 2, 3] [1, 2, 4, 1, 2, 3] =
      [⟨2, -1, some [4, 1]⟩] ∧
    applyEdits [1, 2, 3] (computeDiff [1, 2, 3] [1, 2, 4, 1, 2, 3]) =
      [1, 2, 4, 1, 3] ∧
    applyEdits [1, 2, 3] (computeDiff [1, 2, 3] [1, 2, 4, 1, 2, 3]) ≠
      [1, 2, 4, 1, 2, 3] ∧
    (∀ o m : List Int, (computeDiff o m).length ≤ 1) ∧
    (∀ o : List Int, computeDiff o o = []) := by
  refine ⟨by decide, by decide, by decide, ?_, ?_⟩
  · intro o m
    rw [computeDiff]
    split
    · simp
    · split
      · simp
      · split <;> simp
  · intro o
    have hpre : frontMatchLen o o = o.length := by
      induction o with
      | nil => rfl
      | cons a t ih => simp [frontMatchLen, ih]
    rw [computeDiff]
    rw [if_neg (by rw [hpre]; omega), if_neg (by rw [hpre]; omega),
      if_neg (by rw [hpre]; omega)]

/-! ## Helper lemmas: the semantic-tokens builder -/

theorem claimEncode_length :
    ∀ (ts : List SToken) (first : Bool) (pl pc : Int),
      (claimEncode first pl pc ts).length = 5 * ts.length := by
  intro ts
  induction ts with
  | nil => intro first pl pc; rfl
  | cons tk ts' ih =>
    intro first pl pc
    rw [claimEncode]
    simp only [List.length_cons, ih, List.length_cons]
    omega

theorem builderPushAll_data :
    ∀ (ts : List SToken) (pl pc : Int) (d : List Int), d ≠ [] →
      (builderPushAll ⟨pl, pc, d⟩ ts).data = d ++ claimEncode false pl pc ts := by
  intro ts
  induction ts with
  | nil => intro pl pc d _; simp [builderPushAll, claimEncode]
  | cons tk ts' ih =>
    intro pl pc d hd
    have hlen : d.length > 0 := List.length_pos.mpr hd
    have hpush : builderPush ⟨pl, pc, d⟩ tk =
        ⟨tk.line, tk.char,
          d ++ [tk.line - pl,
            if tk.line = pl then tk.char - pc else tk.char,
            tk.len, tk.tokenType, tk.tokenModifiers]⟩ := by
      rw [builderPush]
      simp only [if_pos hlen]
      by_cases hline : tk.line = pl
      · rw [if_pos ⟨hlen, by omega⟩, if_pos hline]
      · rw [if_neg (by
          rintro ⟨-, hz⟩
          exact hline (by omega)), if_neg hline]
    show (builderPushAll (builderPush ⟨pl, pc, d⟩ tk) ts').data = _
    rw [hpush, ih tk.line tk.char _ (by simp)]
    rw [claimEncode]
    simp

theorem builderPushAll_init_data (ts : List SToken) :
    (builderPushAll builderInit ts).data = claimEncode true 0 0 ts := by
  cases ts with
  | nil => rfl
  | cons tk ts' =>
    have hpush : builderPush builderInit tk =
        ⟨tk.line, tk.char,
          [tk.line, tk.char, tk.len, tk.tokenType, tk.tokenModifiers]⟩ := by
      rw [builderPush]
      simp [builderInit]
    show (builderPushAll (builderPush builderInit tk) ts').data = _
    rw [hpush, builderPushAll_data ts' tk.line tk.char _ (by simp)]
    rw [claimEncode]
    simp

theorem recover_claimEncode_false :
    ∀ (ts : List SToken) (pl pc : Int),
      recoverPositions pl pc (claimEncode false pl pc ts) =
        ts.map (fun tk => (tk.line, tk.char)) := by
  intro ts
  induction ts with
  | nil => intro pl pc; rfl
  | cons tk ts' ih =>
    intro pl pc
    rw [claimEncode]
    by_cases h : tk.line = pl
    · subst h
      simp [recoverPositions, ih]
    · simp [recoverPositions, ih, h, sub_eq_zero]

/-- Claim C10.  Pushing `k` tokens through `SemanticTokensBuilder.push` and
building yields a data array of length exactly `5·k` that equals the claim's
delta encoding (`claimEncode`: relative line; relative char exactly when the
line is unchanged, absolute otherwise; first token absolute; the remaining
three fields verbatim), and the encoding is invertible: `recoverPositions`
restores every token's absolute `(line, char)`. -/
theorem c10_builder_delta_encoding (ts : List SToken) :
    (builderPushAll builderInit ts).data.length = 5 * ts.length ∧
    builderBuild (builderPushAll builderInit ts) = claimEncode true 0 0 ts ∧
    recoverPositions 0 0 (builderBuild (builderPushAll builderInit ts)) =
      ts.map (fun tk => (tk.line, tk.char)) := by
  have hdata := builderPushAll_init_data ts
  refine ⟨?_, hdata, ?_⟩
  · rw [hdata, claimEncode_length]
  · rw [builderBuild, hdata]
    cases ts with
    | nil => rfl
    | cons tk ts' =>
      rw [claimEncode]
      by_cases h : tk.line = 0 <;>
        simp [recoverPositions, recover_claimEncode_false, h]
